import Mathlib

/-!
Verification development for the npmx.dev local connector.

This file gives a shallow embedding of the connector core found in
`cli/src/npm-client.ts` and `cli/src/server.ts`: the error-classification
functions, the operation store, the authentication gate, the HTTP request
handlers, and the dependency-aware wave scheduler of the `/execute`
endpoint. Theorems about the embedded definitions settle the frozen claims
about the repository.

Conventions of the embedding:
* JavaScript strings are Lean `String`; the string routines used by the
  source (`split`, `join`, `trim`, `startsWith`, `includes`,
  `toLowerCase`, `replace`-first-occurrence) are implemented structurally
  over `List Char` so that the kernel can evaluate them.
* The external Command Executor (`execNpm` and its wrappers) is an opaque
  collaborator; it is modelled as a function parameter
  `ExecFn : String → List (String × String) → Option String → NpmExecResult`
  receiving the operation type, its params and the optional OTP.
* Concurrency inside a wave is sequentialized: the JS code awaits every
  task of a wave before the next wave, each task mutates only its own
  record plus append-only accumulators, so the settled state is the fold
  of the per-operation updates.
* Randomly generated operation ids are modelled as inputs of the create
  requests; the reachability relation requires them to be fresh, which is
  the store invariant the random generator is relied upon to provide.
-/

namespace NpmxDev

/-! ### Character-list string routines (JS `String` methods) -/

/-- Lowercase every character, as JS `toLowerCase` does for ASCII text. -/
def lowerStr (s : String) : String :=
  String.mk (s.data.map Char.toLower)

/-- Substring test over character lists, as JS `String.prototype.includes`. -/
def containsSub (hay pat : List Char) : Bool :=
  match hay with
  | [] => pat.isEmpty
  | _ :: rest => List.isPrefixOf pat hay || containsSub rest pat

/-- JS `hay.includes(pat)`. -/
def strIncludes (hay pat : String) : Bool :=
  containsSub hay.data pat.data

/-- Newline character used by JS `split` and `join` calls in the source. -/
def nlChar : Char := Char.ofNat 10

/-- JS `s.split(newline)` over character lists. -/
def splitNl : List Char → List (List Char)
  | [] => [[]]
  | c :: rest =>
    let r := splitNl rest
    if c = nlChar then [] :: r
    else
      match r with
      | [] => [[c]]
      | h :: t => (c :: h) :: t

/-- JS `parts.join(newline)` over character lists. -/
def joinNl : List (List Char) → List Char
  | [] => []
  | [x] => x
  | x :: y :: t => x ++ nlChar :: joinNl (y :: t)

/-- JS `s.trim()`: drop leading and trailing whitespace. -/
def trimChars (l : List Char) : List Char :=
  ((l.dropWhile Char.isWhitespace).reverse.dropWhile Char.isWhitespace).reverse

/-- JS `s.trim()` on strings. -/
def strTrim (s : String) : String :=
  String.mk (trimChars s.data)

/-- Remove the first occurrence of `pat`, as JS `s.replace(pat, empty)`. -/
def removeFirstSub (hay pat : List Char) : List Char :=
  match hay with
  | [] => []
  | c :: rest =>
    if List.isPrefixOf pat hay then hay.drop pat.length
    else c :: removeFirstSub rest pat

/-! ### `npm-client.ts`: execution results and error classification -/

/-- Result shape returned by `execNpm` (interface `NpmExecResult`). The two
optional booleans are absent (falsy) unless the catch branch sets them. -/
structure NpmExecResult where
  stdout : String
  stderr : String
  exitCode : Int
  requiresOtp : Bool := false
  authFailure : Bool := false
deriving Repr, DecidableEq

/-- The OTP-challenge phrase list of `detectOtpRequired`. -/
def otpPatterns : List String :=
  ["EOTP", "one-time password", "This operation requires a one-time password",
   "--otp=<code>"]

/-- The authentication-failure phrase list of `detectAuthFailure`. -/
def authPatterns : List String :=
  ["ENEEDAUTH", "You must be logged in", "authentication error",
   "Unable to authenticate", "code E401", "code E403", "401 Unauthorized",
   "403 Forbidden", "not logged in", "npm login", "npm adduser"]

/-- Source `detectOtpRequired`: case-insensitive substring match of any OTP
pattern against the stderr text. -/
def detectOtpRequired (stderr : String) : Bool :=
  otpPatterns.any (fun p => strIncludes (lowerStr stderr) (lowerStr p))

/-- Source `detectAuthFailure`: case-insensitive substring match of any
auth-failure pattern against the stderr text. -/
def detectAuthFailure (stderr : String) : Bool :=
  authPatterns.any (fun p => strIncludes (lowerStr stderr) (lowerStr p))

/-- Prefix that marks informational warning lines dropped by
`filterNpmWarnings`. -/
def npmWarnStr : String := "npm warn"

/-- Source `filterNpmWarnings`: split on newlines, drop lines starting with
the npm warning prefix, join, trim. -/
def filterNpmWarnings (stderr : String) : String :=
  String.mk (trimChars (joinNl
    ((splitNl stderr.data).filter (fun line => !(List.isPrefixOf npmWarnStr.data line)))))

/-- Fixed sentence surfaced when an OTP pattern matched. -/
def otpSentence : String := "This operation requires a one-time password (OTP)."

/-- Fixed sentence surfaced when an auth-failure pattern matched. -/
def authSentence : String :=
  "Authentication failed. Please run \"npm login\" and restart the connector."

/-- The stderr field produced by the catch branch of `execNpm`: OTP
normalization first, then auth-failure normalization, otherwise the
warning-filtered raw text. -/
def classifyStderr (stderr : String) : String :=
  if detectOtpRequired stderr then otpSentence
  else if detectAuthFailure stderr then authSentence
  else filterNpmWarnings stderr

/-- Stated from the claim wording for comparison with the source: the raw
stderr with lines starting with the npm warning prefix removed, with no
further normalization (no trimming). -/
def removeWarnLinesClaim (stderr : String) : String :=
  String.mk (joinNl
    ((splitNl stderr.data).filter (fun line => !(List.isPrefixOf npmWarnStr.data line))))

/-! ### `server.ts`: the operation store -/

/-- Operation lifecycle states (`PendingOperation.status`). -/
inductive OpStatus where
  | pending
  | approved
  | running
  | completed
  | failed
deriving Repr, DecidableEq

/-- One stored operation (`PendingOperation` in `types.ts`, as the server
populates and mutates it). -/
structure Operation where
  id : String
  opType : String
  params : List (String × String)
  description : String
  command : String
  status : OpStatus
  createdAt : Nat
  dependsOn : Option String := none
  result : Option NpmExecResult := none
deriving Repr, DecidableEq

/-- The opaque Command Executor collaborator: `executeOperation` dispatches
on the operation type with its params and the optional OTP and returns an
`NpmExecResult`. -/
abbrev ExecFn := String → List (String × String) → Option String → NpmExecResult

/-- JS `state.operations.find(op => op.id === id)`. -/
def lookupOp (ops : List Operation) (i : String) : Option Operation :=
  ops.find? (fun o => decide (o.id = i))

/-- Mutation of the operation record(s) carrying a given id; the JS code
mutates the single object found for that id, which this equals whenever ids
are unique (the store invariant). -/
def updateOp (ops : List Operation) (i : String) (f : Operation → Operation) :
    List Operation :=
  ops.map (fun o => if o.id = i then f o else o)

/-- Mutation of only the first record carrying a given id, mirroring the
`find`-then-mutate pattern of the approve and retry handlers exactly. -/
def updateFirst (ops : List Operation) (i : String) (f : Operation → Operation) :
    List Operation :=
  match ops with
  | [] => []
  | o :: rest => if o.id = i then f o :: rest else o :: updateFirst rest i f

/-! ### `server.ts`: the `/execute` wave scheduler -/

/-- The synthetic result recorded for a dependency-cascade skip. -/
def syntheticSkip : NpmExecResult :=
  { stdout := "", stderr := "Skipped: dependency failed", exitCode := 1 }

/-- One recorded status assignment: operation id, status before, status
after. The embedding logs every write to an operation `status` field. -/
abbrev StatusChange := String × OpStatus × OpStatus

/-- Mutable context of one `/execute` call: the shared operation collection
plus the local accumulators `results`, `otpRequired`, `completedIds`,
`failedIds`, and two instrumentation logs (`executed` records each dispatch
to the Command Executor, `changes` records each status write). -/
structure ExecSt where
  ops : List Operation
  results : List (String × NpmExecResult)
  otpRequired : Bool
  completedIds : List String
  failedIds : List String
  executed : List String
  changes : List StatusChange
deriving Repr

/-- The record mutation of a dependency-cascade skip (`op.status = failed`
together with the synthetic result). -/
def failSkipUpd (o : Operation) : Operation :=
  { o with status := OpStatus.failed, result := some syntheticSkip }

/-- The record mutation performed when a dispatched result lands
(`op.result = result; op.status = completed or failed`). -/
def settleUpd (r : NpmExecResult) (stat : OpStatus) (o : Operation) : Operation :=
  { o with status := stat, result := some r }

theorem failSkipUpd_id : ∀ o : Operation, (failSkipUpd o).id = o.id := fun _ => rfl

theorem settleUpd_id (r : NpmExecResult) (stat : OpStatus) :
    ∀ o : Operation, (settleUpd r stat o).id = o.id := fun _ => rfl

@[simp] theorem failSkipUpd_dependsOn (o : Operation) :
    (failSkipUpd o).dependsOn = o.dependsOn := rfl

@[simp] theorem settleUpd_dependsOn (r : NpmExecResult) (stat : OpStatus)
    (o : Operation) : (settleUpd r stat o).dependsOn = o.dependsOn := rfl

/-- The dependency-failed branch of the ready filter: mark the operation
failed with the synthetic result and add it to the failed set. -/
def cascadeFail (st : ExecSt) (i : String) (op : Operation) : ExecSt :=
  { st with
    ops := updateOp st.ops i failSkipUpd
    failedIds := i :: st.failedIds
    results := st.results ++ [(i, syntheticSkip)]
    changes := st.changes ++ [(i, op.status, OpStatus.failed)] }

/-- The ready-set filter of one wave (`approvedOps.filter(...)` in the
source), walked left to right over the snapshot of approved ids: already
processed ids and ids with an unresolved dependency are skipped, ids whose
dependency failed are cascade-failed as a side effect, the rest are ready. -/
def readyPass (st : ExecSt) : List String → List String × ExecSt
  | [] => ([], st)
  | i :: rest =>
    match lookupOp st.ops i with
    | none => readyPass st rest
    | some op =>
      if i ∈ st.completedIds ∨ i ∈ st.failedIds then readyPass st rest
      else
        match op.dependsOn with
        | none =>
          let p := readyPass st rest
          (i :: p.1, p.2)
        | some d =>
          if d ∈ st.completedIds then
            let p := readyPass st rest
            (i :: p.1, p.2)
          else if d ∈ st.failedIds then readyPass (cascadeFail st i op) rest
          else readyPass st rest

/-- Execution of one ready operation: mark it running, dispatch it to the
Command Executor, record its result, terminal status, set membership and
the wave OTP flag. This is the body of the per-operation task; tasks of a
wave only touch their own record and append-only accumulators, so folding
them sequentially yields the settled post-wave state. -/
def processOne (exec : ExecFn) (otp : Option String) (st : ExecSt) (i : String) :
    ExecSt :=
  match lookupOp st.ops i with
  | none => st
  | some op =>
    let r := exec op.opType op.params otp
    let newStatus := if r.exitCode = 0 then OpStatus.completed else OpStatus.failed
    { st with
      ops := updateOp st.ops i (settleUpd r newStatus)
      completedIds := if r.exitCode = 0 then i :: st.completedIds else st.completedIds
      failedIds := if r.exitCode = 0 then st.failedIds else i :: st.failedIds
      executed := st.executed ++ [i]
      results := st.results ++ [(i, r)]
      otpRequired := st.otpRequired || r.requiresOtp
      changes := st.changes ++
        [(i, op.status, OpStatus.running), (i, OpStatus.running, newStatus)] }

/-- JS falsiness of the optional OTP value (`!otp`). -/
def otpMissing : Option String → Bool
  | none => true
  | some s => s.isEmpty

/-- The wave loop of `/execute`, with explicit fuel standing for the
unbounded `while (true)`: compute the ready set (cascading dependency
failures), stop on an empty ready set or on an OTP stall, otherwise run the
wave and repeat. `none` means the fuel ran out before the loop stopped. -/
def execLoop (exec : ExecFn) (otp : Option String) (approvedIds : List String) :
    Nat → ExecSt → Option ExecSt
  | 0, _ => none
  | fuel + 1, st =>
    let p := readyPass st approvedIds
    if p.1.isEmpty then some p.2
    else if p.2.otpRequired && otpMissing otp then some p.2
    else execLoop exec otp approvedIds fuel (List.foldl (processOne exec otp) p.2 p.1)

/-- The snapshot `approvedOps` taken at the start of `/execute`, reduced to
its ids (the record fields are read back through the shared collection). -/
def approvedIdsOf (ops : List Operation) : List String :=
  (ops.filter (fun o => decide (o.status = OpStatus.approved))).map (fun o => o.id)

/-- Initial context of one `/execute` call. -/
def initExecSt (ops : List Operation) : ExecSt :=
  { ops := ops, results := [], otpRequired := false, completedIds := [],
    failedIds := [], executed := [], changes := [] }

/-- One full `/execute` scheduler run, with enough fuel for the loop to
stop on its own (proved below); `none` never occurs. -/
def executeRunOpt (exec : ExecFn) (otp : Option String) (ops : List Operation) :
    Option ExecSt :=
  execLoop exec otp (approvedIdsOf ops) ((approvedIdsOf ops).length + 1)
    (initExecSt ops)

/-- The settled context of one `/execute` call. -/
def executeRun (exec : ExecFn) (otp : Option String) (ops : List Operation) :
    ExecSt :=
  (executeRunOpt exec otp ops).getD (initExecSt ops)

/-! ### `server.ts`: session, auth gate and HTTP surface -/

/-- The session record created by `createConnectorApp`. -/
structure Session where
  token : String
  connectedAt : Nat
  npmUser : Option String
deriving Repr, DecidableEq

/-- The whole connector state: one session and the ordered operation
collection. -/
structure ConnState where
  session : Session
  operations : List Operation
deriving Repr, DecidableEq

/-- State at process start, with the freshly minted token. -/
def initConnState (tok : String) : ConnState :=
  { session := { token := tok, connectedAt := 0, npmUser := none }, operations := [] }

/-- The literal stripped from the Authorization header. -/
def bearerStr : String := "Bearer "

/-- Source `validateToken`: a missing or empty header fails; otherwise the
first occurrence of the bearer prefix is removed and the remainder is
compared with the minted token. -/
def validateToken (expectedToken : String) (auth : Option String) : Bool :=
  match auth with
  | none => false
  | some h =>
    if h.isEmpty then false
    else decide (String.mk (removeFirstSub h.data bearerStr.data) = expectedToken)

/-- Thrown HTTP errors (`createError` payloads). -/
structure HErr where
  statusCode : Nat
  message : String
deriving Repr, DecidableEq

def invalidTokenErr : HErr := { statusCode := 401, message := "Invalid token" }
def unauthorizedErr : HErr := { statusCode := 401, message := "Unauthorized" }
def notFoundErr : HErr := { statusCode := 404, message := "Operation not found" }
def notPendingErr : HErr := { statusCode := 400, message := "Operation is not pending" }
def notFailedErr : HErr :=
  { statusCode := 400, message := "Only failed operations can be retried" }
def cancelRunningErr : HErr :=
  { statusCode := 400, message := "Cannot cancel running operation" }
def orgRequiredErr : HErr := { statusCode := 400, message := "Org name required" }
def teamRequiredErr : HErr := { statusCode := 400, message := "Team name required" }
def pkgRequiredErr : HErr := { statusCode := 400, message := "Package name required" }

/-- Payload of a create request (one entry of `/operations` or of the batch
endpoint), with the randomly generated id supplied as an input. -/
structure NewOpSpec where
  id : String
  opType : String
  params : List (String × String)
  description : String
  command : String
deriving Repr, DecidableEq

/-- The inbound requests of the connector surface. External inputs consumed
while handling (the npm identity for `/connect`, clock readings, the
Command Executor for `/execute`, the npm result and the outcome of JSON
parsing for the read-only queries) travel in the request value. -/
inductive Request where
  | connect (bodyToken : String) (npmUser : Option String) (now : Nat)
  | getState
  | createOp (spec : NewOpSpec) (now : Nat)
  | createBatch (specs : List NewOpSpec) (now : Nat)
  | approve (id : String)
  | approveAll
  | retryOp (id : String)
  | execute (otp : Option String) (exec : ExecFn)
  | deleteOp (id : String)
  | deleteAll
  | orgUsers (org : String) (r : NpmExecResult) (parseOk : Bool)
  | orgTeams (org : String) (r : NpmExecResult) (parseOk : Bool)
  | teamUsers (team : String) (r : NpmExecResult) (parseOk : Bool)
  | pkgCollaborators (pkg : String) (r : NpmExecResult) (parseOk : Bool)

/-- Success payloads of the response envelope. The read-only query
endpoints return either parsed data (modelled as the raw stdout, since the
shape of the parsed JSON is outside the claims) or an in-envelope failure
message. -/
inductive RespData where
  | connected (npmUser : Option String) (connectedAt : Nat)
  | stateData (npmUser : Option String) (operations : List Operation)
  | opData (op : Operation)
  | opList (ops : List Operation)
  | approvedCount (n : Nat)
  | execData (results : List (String × NpmExecResult)) (otpRequired : Bool)
      (authFailure : Bool)
  | okNoData
  | removedCount (n : Nat)
  | queryData (raw : String)
  | queryFailed (message : String)
deriving Repr, DecidableEq

def msgFailOrgUsers : String := "Failed to list org users"
def msgParseOrgUsers : String := "Failed to parse org users"
def msgFailTeams : String := "Failed to list teams"
def msgParseTeams : String := "Failed to parse teams"
def msgFailTeamUsers : String := "Failed to list team users"
def msgParseTeamUsers : String := "Failed to parse team users"
def msgFailCollaborators : String := "Failed to list collaborators"
def msgParseCollaborators : String := "Failed to parse collaborators"

/-- Build the fresh pending operation appended by the create endpoints. -/
def newOperation (s : NewOpSpec) (now : Nat) : Operation :=
  { id := s.id, opType := s.opType, params := s.params,
    description := s.description, command := s.command,
    status := OpStatus.pending, createdAt := now }

/-- Shared shape of the four read-only query handlers: non-zero exit or a
parse failure surface as an in-envelope failure message (HTTP 200). -/
def queryRespOf (r : NpmExecResult) (parseOk : Bool) (failMsg parseMsg : String) :
    RespData :=
  if r.exitCode ≠ 0 then
    RespData.queryFailed (if r.stderr.isEmpty then failMsg else r.stderr)
  else if parseOk then RespData.queryData r.stdout
  else RespData.queryFailed parseMsg

/-- The reset applied by the retry handler to a failed operation. -/
def retryReset (o : Operation) : Operation :=
  { o with status := OpStatus.approved, result := none }

/-- The request handlers of `createConnectorApp`, one match arm per
endpoint. A thrown `createError` is an `Except.error`; a success is the new
connector state, the envelope data and the log of status writes. -/
def handle (st : ConnState) (auth : Option String) (req : Request) :
    Except HErr (ConnState × RespData × List StatusChange) :=
  match req with
  | Request.connect bodyToken npmUser now =>
    if bodyToken = st.session.token then
      Except.ok
        ({ st with session := { st.session with connectedAt := now, npmUser := npmUser } },
         RespData.connected npmUser now, [])
    else Except.error invalidTokenErr
  | Request.getState =>
    if validateToken st.session.token auth then
      Except.ok (st, RespData.stateData st.session.npmUser st.operations, [])
    else Except.error unauthorizedErr
  | Request.createOp spec now =>
    if validateToken st.session.token auth then
      Except.ok
        ({ st with operations := st.operations ++ [newOperation spec now] },
         RespData.opData (newOperation spec now), [])
    else Except.error unauthorizedErr
  | Request.createBatch specs now =>
    if validateToken st.session.token auth then
      Except.ok
        ({ st with operations := st.operations ++ specs.map (fun s => newOperation s now) },
         RespData.opList (specs.map (fun s => newOperation s now)), [])
    else Except.error unauthorizedErr
  | Request.approve i =>
    if validateToken st.session.token auth then
      match lookupOp st.operations i with
      | none => Except.error notFoundErr
      | some op =>
        if op.status = OpStatus.pending then
          let ops' := updateFirst st.operations i
            (fun o => { o with status := OpStatus.approved })
          Except.ok
            ({ st with operations := ops' },
             RespData.opData { op with status := OpStatus.approved },
             [(i, op.status, OpStatus.approved)])
        else Except.error notPendingErr
    else Except.error unauthorizedErr
  | Request.approveAll =>
    if validateToken st.session.token auth then
      let pend := st.operations.filter (fun o => decide (o.status = OpStatus.pending))
      let ops' := st.operations.map
        (fun o => if o.status = OpStatus.pending
          then { o with status := OpStatus.approved } else o)
      Except.ok
        ({ st with operations := ops' },
         RespData.approvedCount pend.length,
         pend.map (fun o => (o.id, o.status, OpStatus.approved)))
    else Except.error unauthorizedErr
  | Request.retryOp i =>
    if validateToken st.session.token auth then
      match lookupOp st.operations i with
      | none => Except.error notFoundErr
      | some op =>
        if op.status = OpStatus.failed then
          Except.ok
            ({ st with operations := updateFirst st.operations i retryReset },
             RespData.opData (retryReset op),
             [(i, op.status, OpStatus.approved)])
        else Except.error notFailedErr
    else Except.error unauthorizedErr
  | Request.execute otp exec =>
    if validateToken st.session.token auth then
      let fin := executeRun exec otp st.operations
      Except.ok
        ({ st with operations := fin.ops },
         RespData.execData fin.results fin.otpRequired
           (fin.results.any (fun p => p.2.authFailure)),
         fin.changes)
    else Except.error unauthorizedErr
  | Request.deleteOp i =>
    if validateToken st.session.token auth then
      match st.operations.findIdx? (fun o => decide (o.id = i)) with
      | none => Except.error notFoundErr
      | some n =>
        match st.operations.get? n with
        | none => Except.error cancelRunningErr
        | some op =>
          if op.status = OpStatus.running then Except.error cancelRunningErr
          else
            Except.ok ({ st with operations := st.operations.eraseIdx n },
              RespData.okNoData, [])
    else Except.error unauthorizedErr
  | Request.deleteAll =>
    if validateToken st.session.token auth then
      let kept := st.operations.filter (fun o => decide (o.status = OpStatus.running))
      let removed := st.operations.filter (fun o => decide (o.status ≠ OpStatus.running))
      Except.ok
        ({ st with operations := kept }, RespData.removedCount removed.length, [])
    else Except.error unauthorizedErr
  | Request.orgUsers org r parseOk =>
    if validateToken st.session.token auth then
      if org.isEmpty then Except.error orgRequiredErr
      else Except.ok (st, queryRespOf r parseOk msgFailOrgUsers msgParseOrgUsers, [])
    else Except.error unauthorizedErr
  | Request.orgTeams org r parseOk =>
    if validateToken st.session.token auth then
      if org.isEmpty then Except.error orgRequiredErr
      else Except.ok (st, queryRespOf r parseOk msgFailTeams msgParseTeams, [])
    else Except.error unauthorizedErr
  | Request.teamUsers team r parseOk =>
    if validateToken st.session.token auth then
      if team.isEmpty then Except.error teamRequiredErr
      else Except.ok (st, queryRespOf r parseOk msgFailTeamUsers msgParseTeamUsers, [])
    else Except.error unauthorizedErr
  | Request.pkgCollaborators pkg r parseOk =>
    if validateToken st.session.token auth then
      if pkg.isEmpty then Except.error pkgRequiredErr
      else Except.ok (st, queryRespOf r parseOk msgFailCollaborators msgParseCollaborators, [])
    else Except.error unauthorizedErr

/-- The connector state after a request: a thrown error leaves the state
untouched. -/
def stepState (st : ConnState) (auth : Option String) (req : Request) : ConnState :=
  match handle st auth req with
  | Except.error _ => st
  | Except.ok out => out.1

/-- Endpoints behind the auth gate: everything except the handshake. -/
def isProtected : Request → Bool
  | Request.connect _ _ _ => false
  | _ => true

/-- Freshness side condition on randomly generated operation ids: the model
of the source relying on 8 random bytes per id never colliding. -/
def freshOk (st : ConnState) : Request → Prop
  | Request.createOp spec _ => ∀ op ∈ st.operations, op.id ≠ spec.id
  | Request.createBatch specs _ =>
    (specs.map (fun s => s.id)).Nodup ∧
      ∀ s ∈ specs, ∀ op ∈ st.operations, op.id ≠ s.id
  | _ => True

/-- Connector states reachable from process start through any sequence of
handled requests. -/
inductive Reachable (tok : String) : ConnState → Prop where
  | init : Reachable tok (initConnState tok)
  | step {st auth req st' resp log} (h₀ : Reachable tok st) (hf : freshOk st req)
      (h : handle st auth req = Except.ok (st', resp, log)) : Reachable tok st'

/-- The status edges named by the specification: the approval chain plus
the retry edge. -/
def edgeOk : OpStatus → OpStatus → Bool
  | OpStatus.pending, OpStatus.approved => true
  | OpStatus.approved, OpStatus.running => true
  | OpStatus.running, OpStatus.completed => true
  | OpStatus.running, OpStatus.failed => true
  | OpStatus.failed, OpStatus.approved => true
  | _, _ => false

/-- Log of the status writes performed by one handled request (a thrown
error performs none). -/
def stepLog (st : ConnState) (auth : Option String) (req : Request) :
    List StatusChange :=
  match handle st auth req with
  | Except.error _ => []
  | Except.ok out => out.2.2

/-- The store invariant maintained by the request surface: operation ids
are unique (the freshness the random id generator is relied on for), no
stored operation carries a dependency — no endpoint of this surface ever
sets `dependsOn` — and no operation is left `running` between requests. -/
def StoreInv (st : ConnState) : Prop :=
  (st.operations.map (fun o => o.id)).Nodup ∧
  ∀ op ∈ st.operations, op.dependsOn = none ∧ op.status ≠ OpStatus.running

/-! ### Concrete instances used to witness the theorems -/

/-- Command Executor stub failing every operation with a plain error. -/
def wExecFail : ExecFn := fun _ _ _ => { stdout := "", stderr := "boom", exitCode := 1 }

/-- Command Executor stub succeeding on every operation. -/
def wExecOk : ExecFn := fun _ _ _ => { stdout := "ok", stderr := "", exitCode := 0 }

/-- Command Executor stub failing with an OTP challenge. -/
def wExecOtp : ExecFn :=
  fun _ _ _ => { stdout := "", stderr := "", exitCode := 1, requiresOtp := true }

def wOpA : Operation :=
  { id := "a", opType := "team:create", params := [], description := "create team",
    command := "npm team create", status := OpStatus.approved, createdAt := 0 }

def wOpAFailed : Operation := { wOpA with status := OpStatus.failed }

def wOpB : Operation :=
  { id := "b", opType := "team:destroy", params := [], description := "destroy team",
    command := "npm team destroy", status := OpStatus.approved, createdAt := 1,
    dependsOn := some "a" }

def wOpY : Operation :=
  { id := "y", opType := "team:create", params := [], description := "later",
    command := "npm team create", status := OpStatus.approved, createdAt := 2,
    dependsOn := some "zzz" }

def wTok : String := "token1"

def wStFailed : ConnState :=
  { session := { token := wTok, connectedAt := 5, npmUser := some "alice" },
    operations := [wOpAFailed, wOpY] }

def wSpecA : NewOpSpec :=
  { id := "a", opType := "team:create", params := [], description := "create team",
    command := "npm team create" }

def wBoomResult : NpmExecResult := { stdout := "", stderr := "boom", exitCode := 1 }

def wOpAFailedBoom : Operation :=
  { wOpA with status := OpStatus.failed, result := some wBoomResult }

def c6Input : String := "npm warn a\n\nb"

def c6Witness : String := "npm ERR! code EOTP and code E401"

def wIdA : String := "a"

def wAuth : Option String := some "Bearer token1"

def wStCreated : ConnState :=
  { session := { token := wTok, connectedAt := 0, npmUser := none },
    operations := [newOperation wSpecA 7] }

def wStApproved : ConnState :=
  { wStCreated with
    operations := [{ newOperation wSpecA 7 with status := OpStatus.approved }] }

/-! ### Basic lemmas about the store primitives -/

theorem lookupOp_id {ops : List Operation} {j : String} {o : Operation}
    (h : lookupOp ops j = some o) : o.id = j := by
  have := List.find?_some h
  exact of_decide_eq_true this

theorem lookupOp_mem {ops : List Operation} {j : String} {o : Operation}
    (h : lookupOp ops j = some o) : o ∈ ops :=
  List.mem_of_find?_eq_some h

theorem lookupOp_updateOp (ops : List Operation) (i j : String)
    (f : Operation → Operation) (hf : ∀ o, (f o).id = o.id) :
    lookupOp (updateOp ops i f) j =
      (lookupOp ops j).map (fun o => if o.id = i then f o else o) := by
  induction ops with
  | nil => rfl
  | cons o rest ih =>
    have hid : (if o.id = i then f o else o).id = o.id := by
      by_cases hi : o.id = i
      · rw [if_pos hi, hf o]
      · rw [if_neg hi]
    show lookupOp ((if o.id = i then f o else o) :: updateOp rest i f) j = _
    by_cases h : o.id = j
    · rw [lookupOp, List.find?_cons_of_pos _ (by simp only [hid]; exact decide_eq_true h),
        lookupOp, List.find?_cons_of_pos _ (by simp [h])]
      simp
    · rw [lookupOp, List.find?_cons_of_neg _ (by simp only [hid]; simpa using h),
        lookupOp, List.find?_cons_of_neg _ (by simp [h])]
      exact ih

theorem lookupOp_updateOp_ne {ops : List Operation} {i j : String}
    {f : Operation → Operation} (hf : ∀ o, (f o).id = o.id) (hne : j ≠ i) :
    lookupOp (updateOp ops i f) j = lookupOp ops j := by
  rw [lookupOp_updateOp ops i j f hf]
  cases hl : lookupOp ops j with
  | none => rfl
  | some o =>
    have : o.id = j := lookupOp_id hl
    simp [this, hne]

theorem lookupOp_updateOp_self {ops : List Operation} {i : String}
    {f : Operation → Operation} (hf : ∀ o, (f o).id = o.id) :
    lookupOp (updateOp ops i f) i = (lookupOp ops i).map f := by
  rw [lookupOp_updateOp ops i i f hf]
  cases hl : lookupOp ops i with
  | none => rfl
  | some o =>
    have : o.id = i := lookupOp_id hl
    simp [this]

theorem updateOp_map_id {ops : List Operation} {i : String}
    {f : Operation → Operation} (hf : ∀ o, (f o).id = o.id) :
    (updateOp ops i f).map (fun o => o.id) = ops.map (fun o => o.id) := by
  induction ops with
  | nil => rfl
  | cons o rest ih =>
    by_cases h : o.id = i <;> simpa [updateOp, h, hf] using ih

theorem lookupOp_isSome_of_mem_id {ops : List Operation} {j : String}
    (h : j ∈ ops.map (fun o => o.id)) : ∃ o, lookupOp ops j = some o := by
  obtain ⟨o, ho, rfl⟩ := List.mem_map.mp h
  have : (lookupOp ops o.id).isSome = true := by
    rw [lookupOp, List.find?_isSome]
    exact ⟨o, ho, by simp⟩
  exact Option.isSome_iff_exists.mp this

theorem lookupOp_eq_of_nodup {ops : List Operation} {o : Operation}
    (hnd : (ops.map (fun x => x.id)).Nodup) (hmem : o ∈ ops) :
    lookupOp ops o.id = some o := by
  induction ops with
  | nil => cases hmem
  | cons x rest ih =>
    rw [List.map_cons, List.nodup_cons] at hnd
    rcases List.mem_cons.mp hmem with rfl | hmem
    · rw [lookupOp, List.find?_cons_of_pos _ (by simp)]
    · have hx : ¬ x.id = o.id := by
        intro h
        exact hnd.1 (h ▸ List.mem_map.mpr ⟨o, hmem, rfl⟩)
      have hrest := ih hnd.2 hmem
      rw [lookupOp, List.find?_cons_of_neg _ (by simp [hx])]
      exact hrest

theorem mem_approvedIdsOf {ops : List Operation} {i : String} :
    i ∈ approvedIdsOf ops ↔ ∃ op ∈ ops, op.id = i ∧ op.status = OpStatus.approved := by
  constructor
  · intro h
    obtain ⟨op, hmem, rfl⟩ := List.mem_map.mp h
    have := List.mem_filter.mp hmem
    exact ⟨op, this.1, rfl, of_decide_eq_true this.2⟩
  · rintro ⟨op, hmem, rfl, hst⟩
    exact List.mem_map.mpr ⟨op, List.mem_filter.mpr ⟨hmem, by simp [hst]⟩, rfl⟩

theorem approvedIdsOf_sublist (ops : List Operation) :
    (approvedIdsOf ops).Sublist (ops.map (fun o => o.id)) :=
  List.Sublist.map _ (List.filter_sublist ops)

theorem approvedIdsOf_nodup {ops : List Operation}
    (hnd : (ops.map (fun o => o.id)).Nodup) : (approvedIdsOf ops).Nodup :=
  (approvedIdsOf_sublist ops).nodup hnd

theorem lookupOp_status_approved {ops : List Operation} {i : String} {op : Operation}
    (hnd : (ops.map (fun o => o.id)).Nodup) (hi : i ∈ approvedIdsOf ops)
    (hl : lookupOp ops i = some op) : op.status = OpStatus.approved := by
  obtain ⟨op', hmem, hid, hst⟩ := mem_approvedIdsOf.mp hi
  have := lookupOp_eq_of_nodup hnd hmem
  rw [hid, hl] at this
  cases this
  exact hst

/-! ### The wave-loop invariant bundle -/

/-- Facts maintained by every step of the `/execute` wave loop, relative to
the operation collection `ops₀` at the start of the call: operations not in
the completed or failed sets are untouched; ids and dependency edges never
change; set membership determines terminal status and result; the completed
and failed sets are disjoint; every dispatched operation is settled and had
its dependency (if any) completed; a recorded result carrying the OTP flag
has set the wave OTP flag. -/
structure LoopInv (ops₀ : List Operation) (st : ExecSt) : Prop where
  untouched : ∀ j, j ∉ st.completedIds → j ∉ st.failedIds →
    lookupOp st.ops j = lookupOp ops₀ j
  ids : st.ops.map (fun o => o.id) = ops₀.map (fun o => o.id)
  deps : ∀ j, (lookupOp st.ops j).map (fun o => o.dependsOn) =
    (lookupOp ops₀ j).map (fun o => o.dependsOn)
  stComp : ∀ j op, lookupOp st.ops j = some op → j ∈ st.completedIds →
    op.status = OpStatus.completed ∧ ∃ r, op.result = some r ∧ r.exitCode = 0
  stFail : ∀ j op, lookupOp st.ops j = some op → j ∈ st.failedIds →
    op.status = OpStatus.failed
  failCascade : ∀ j op, lookupOp st.ops j = some op → j ∈ st.failedIds →
    j ∉ st.executed → op.result = some syntheticSkip
  failDispatch : ∀ j op, lookupOp st.ops j = some op → j ∈ st.failedIds →
    j ∈ st.executed → ∃ r, op.result = some r ∧ r.exitCode ≠ 0
  disj : ∀ j, j ∈ st.completedIds → j ∉ st.failedIds
  execSettled : ∀ j, j ∈ st.executed → j ∈ st.completedIds ∨ j ∈ st.failedIds
  execDep : ∀ j, j ∈ st.executed → ∀ op₀, lookupOp ops₀ j = some op₀ →
    op₀.dependsOn = none ∨ ∃ d, op₀.dependsOn = some d ∧ d ∈ st.completedIds
  otpRes : ∀ p ∈ st.results, p.2.requiresOtp = true → st.otpRequired = true
  compDispatch : ∀ j, j ∈ st.completedIds → j ∈ st.executed

theorem loopInv_init (ops : List Operation) : LoopInv ops (initExecSt ops) := by
  constructor <;> simp [initExecSt]

theorem loopInv_cascadeFail {ops₀ : List Operation} {st : ExecSt} {i : String}
    {op : Operation} (hInv : LoopInv ops₀ st)
    (hc : i ∉ st.completedIds) (hfa : i ∉ st.failedIds) :
    LoopInv ops₀ (cascadeFail st i op) := by
  have hfid := failSkipUpd_id
  have hexec : i ∉ st.executed := by
    intro h
    rcases hInv.execSettled i h with h' | h'
    · exact hc h'
    · exact hfa h'
  have hops : (cascadeFail st i op).ops = updateOp st.ops i failSkipUpd := rfl
  refine ⟨?_, ?_, ?_, ?_, ?_, ?_, ?_, ?_, ?_, ?_, ?_, ?_⟩
  · intro j hjc hjf
    simp only [cascadeFail, List.mem_cons] at hjc hjf
    push_neg at hjf
    rw [hops, lookupOp_updateOp_ne hfid hjf.1]
    exact hInv.untouched j hjc hjf.2
  · rw [hops, updateOp_map_id hfid]
    exact hInv.ids
  · intro j
    rw [hops, lookupOp_updateOp st.ops i j _ hfid, ← hInv.deps j]
    cases lookupOp st.ops j with
    | none => rfl
    | some o => by_cases h : o.id = i <;> simp [h]
  · intro j o hlj hjc
    simp only [cascadeFail] at hjc
    have hji : j ≠ i := fun h => hc (h ▸ hjc)
    rw [hops, lookupOp_updateOp_ne hfid hji] at hlj
    exact hInv.stComp j o hlj hjc
  · intro j o hlj hjf
    simp only [cascadeFail, List.mem_cons] at hjf
    rcases hjf with rfl | hjf
    · rw [hops, lookupOp_updateOp_self hfid] at hlj
      cases hl : lookupOp st.ops j with
      | none => rw [hl] at hlj; cases hlj
      | some o' => rw [hl] at hlj; cases hlj; rfl
    · have hji : j ≠ i := fun h => hfa (h ▸ hjf)
      rw [hops, lookupOp_updateOp_ne hfid hji] at hlj
      exact hInv.stFail j o hlj hjf
  · intro j o hlj hjf hje
    simp only [cascadeFail, List.mem_cons] at hjf hje
    rcases hjf with rfl | hjf
    · rw [hops, lookupOp_updateOp_self hfid] at hlj
      cases hl : lookupOp st.ops j with
      | none => rw [hl] at hlj; cases hlj
      | some o' => rw [hl] at hlj; cases hlj; rfl
    · have hji : j ≠ i := fun h => hfa (h ▸ hjf)
      rw [hops, lookupOp_updateOp_ne hfid hji] at hlj
      exact hInv.failCascade j o hlj hjf hje
  · intro j o hlj hjf hje
    simp only [cascadeFail, List.mem_cons] at hjf hje
    rcases hjf with rfl | hjf
    · exact absurd hje hexec
    · have hji : j ≠ i := fun h => hfa (h ▸ hjf)
      rw [hops, lookupOp_updateOp_ne hfid hji] at hlj
      exact hInv.failDispatch j o hlj hjf hje
  · intro j hjc
    simp only [cascadeFail, List.mem_cons] at hjc ⊢
    push_neg
    exact ⟨fun h => hc (h ▸ hjc), hInv.disj j hjc⟩
  · intro j hje
    simp only [cascadeFail, List.mem_cons] at hje ⊢
    rcases hInv.execSettled j hje with h | h
    · exact Or.inl h
    · exact Or.inr (Or.inr h)
  · intro j hje op₀ hl₀
    exact hInv.execDep j hje op₀ hl₀
  · intro p hp hr
    simp only [cascadeFail, List.mem_append, List.mem_singleton] at hp
    rcases hp with hp | hp
    · exact hInv.otpRes p hp hr
    · subst hp
      simp [syntheticSkip] at hr
  · intro j h
    simp only [cascadeFail] at h ⊢
    exact hInv.compDispatch j h

theorem lookupOp_updateOp_of_eq {ops : List Operation} {i : String}
    {f : Operation → Operation} {op : Operation}
    (hf : ∀ o, (f o).id = o.id) (hl : lookupOp ops i = some op) :
    lookupOp (updateOp ops i f) i = some (f op) := by
  rw [lookupOp_updateOp_self hf, hl]
  rfl

theorem loopInv_processOne {ops₀ : List Operation} {st : ExecSt} {i : String}
    (hInv : LoopInv ops₀ st) (hc : i ∉ st.completedIds) (hfa : i ∉ st.failedIds)
    (hdep : ∀ op₀, lookupOp ops₀ i = some op₀ →
      op₀.dependsOn = none ∨ ∃ d, op₀.dependsOn = some d ∧ d ∈ st.completedIds)
    (exec : ExecFn) (otp : Option String) :
    LoopInv ops₀ (processOne exec otp st i) := by
  cases hl : lookupOp st.ops i with
  | none =>
    have : processOne exec otp st i = st := by simp [processOne, hl]
    rw [this]
    exact hInv
  | some op =>
    by_cases hr : (exec op.opType op.params otp).exitCode = 0
    · -- successful dispatch: the operation completes
      have hfid := settleUpd_id (exec op.opType op.params otp) OpStatus.completed
      have hP : processOne exec otp st i =
          { ops := updateOp st.ops i (settleUpd (exec op.opType op.params otp) OpStatus.completed),
            results := st.results ++ [(i, exec op.opType op.params otp)],
            otpRequired := st.otpRequired || (exec op.opType op.params otp).requiresOtp,
            completedIds := i :: st.completedIds,
            failedIds := st.failedIds,
            executed := st.executed ++ [i],
            changes := st.changes ++ [(i, op.status, OpStatus.running), (i, OpStatus.running, OpStatus.completed)] } := by
        simp [processOne, hl, hr]
      rw [hP]
      refine ⟨?_, ?_, ?_, ?_, ?_, ?_, ?_, ?_, ?_, ?_, ?_, ?_⟩
      · intro j hjc hjf
        simp only [List.mem_cons] at hjc hjf
        push_neg at hjc
        rw [lookupOp_updateOp_ne hfid hjc.1]
        exact hInv.untouched j hjc.2 hjf
      · rw [updateOp_map_id hfid]
        exact hInv.ids
      · intro j
        rw [lookupOp_updateOp st.ops i j _ hfid, ← hInv.deps j]
        cases lookupOp st.ops j with
        | none => rfl
        | some o => by_cases h : o.id = i <;> simp [h]
      · intro j o hlj hjc
        simp only [List.mem_cons] at hjc
        rcases hjc with rfl | hjc
        · rw [lookupOp_updateOp_of_eq hfid hl] at hlj
          cases hlj
          exact ⟨rfl, exec op.opType op.params otp, rfl, hr⟩
        · have hji : j ≠ i := fun h => hc (h ▸ hjc)
          rw [lookupOp_updateOp_ne hfid hji] at hlj
          exact hInv.stComp j o hlj hjc
      · intro j o hlj hjf
        have hji : j ≠ i := fun h => hfa (h ▸ hjf)
        rw [lookupOp_updateOp_ne hfid hji] at hlj
        exact hInv.stFail j o hlj hjf
      · intro j o hlj hjf hje
        simp only [List.mem_append, List.mem_singleton] at hje
        push_neg at hje
        have hji : j ≠ i := fun h => hfa (h ▸ hjf)
        rw [lookupOp_updateOp_ne hfid hji] at hlj
        exact hInv.failCascade j o hlj hjf hje.1
      · intro j o hlj hjf hje
        have hji : j ≠ i := fun h => hfa (h ▸ hjf)
        rw [lookupOp_updateOp_ne hfid hji] at hlj
        simp only [List.mem_append, List.mem_singleton] at hje
        rcases hje with hje | rfl
        · exact hInv.failDispatch j o hlj hjf hje
        · exact absurd hjf hfa
      · intro j hjc
        simp only [List.mem_cons] at hjc
        rcases hjc with rfl | hjc
        · exact hfa
        · exact hInv.disj j hjc
      · intro j hje
        simp only [List.mem_append, List.mem_singleton] at hje
        rcases hje with hje | rfl
        · rcases hInv.execSettled j hje with h | h
          · exact Or.inl (List.mem_cons_of_mem i h)
          · exact Or.inr h
        · exact Or.inl (List.mem_cons_self j st.completedIds)
      · intro j hje op₀ hl₀
        simp only [List.mem_append, List.mem_singleton] at hje
        rcases hje with hje | rfl
        · rcases hInv.execDep j hje op₀ hl₀ with h | ⟨d, hd, hdc⟩
          · exact Or.inl h
          · exact Or.inr ⟨d, hd, List.mem_cons_of_mem i hdc⟩
        · rcases hdep op₀ hl₀ with h | ⟨d, hd, hdc⟩
          · exact Or.inl h
          · exact Or.inr ⟨d, hd, List.mem_cons_of_mem j hdc⟩
      · intro p hp hro
        simp only [List.mem_append, List.mem_singleton] at hp
        rcases hp with hp | rfl
        · rw [hInv.otpRes p hp hro]
          rfl
        · simp only at hro
          rw [hro]
          simp
      · intro j hj
        simp only [List.mem_cons] at hj
        rcases hj with rfl | hj
        · exact List.mem_append.mpr (Or.inr (by simp))
        · exact List.mem_append.mpr (Or.inl (hInv.compDispatch j hj))
    · -- failed dispatch: the operation fails with the returned result
      have hfid := settleUpd_id (exec op.opType op.params otp) OpStatus.failed
      have hP : processOne exec otp st i =
          { ops := updateOp st.ops i (settleUpd (exec op.opType op.params otp) OpStatus.failed),
            results := st.results ++ [(i, exec op.opType op.params otp)],
            otpRequired := st.otpRequired || (exec op.opType op.params otp).requiresOtp,
            completedIds := st.completedIds,
            failedIds := i :: st.failedIds,
            executed := st.executed ++ [i],
            changes := st.changes ++ [(i, op.status, OpStatus.running), (i, OpStatus.running, OpStatus.failed)] } := by
        simp [processOne, hl, hr]
      rw [hP]
      refine ⟨?_, ?_, ?_, ?_, ?_, ?_, ?_, ?_, ?_, ?_, ?_, ?_⟩
      · intro j hjc hjf
        simp only [List.mem_cons] at hjf
        push_neg at hjf
        rw [lookupOp_updateOp_ne hfid hjf.1]
        exact hInv.untouched j hjc hjf.2
      · rw [updateOp_map_id hfid]
        exact hInv.ids
      · intro j
        rw [lookupOp_updateOp st.ops i j _ hfid, ← hInv.deps j]
        cases lookupOp st.ops j with
        | none => rfl
        | some o => by_cases h : o.id = i <;> simp [h]
      · intro j o hlj hjc
        have hji : j ≠ i := fun h => hc (h ▸ hjc)
        rw [lookupOp_updateOp_ne hfid hji] at hlj
        exact hInv.stComp j o hlj hjc
      · intro j o hlj hjf
        simp only [List.mem_cons] at hjf
        rcases hjf with rfl | hjf
        · rw [lookupOp_updateOp_of_eq hfid hl] at hlj
          cases hlj
          rfl
        · have hji : j ≠ i := fun h => hfa (h ▸ hjf)
          rw [lookupOp_updateOp_ne hfid hji] at hlj
          exact hInv.stFail j o hlj hjf
      · intro j o hlj hjf hje
        simp only [List.mem_append, List.mem_singleton] at hje
        push_neg at hje
        simp only [List.mem_cons] at hjf
        rcases hjf with rfl | hjf
        · exact absurd rfl hje.2
        · have hji : j ≠ i := fun h => hfa (h ▸ hjf)
          rw [lookupOp_updateOp_ne hfid hji] at hlj
          exact hInv.failCascade j o hlj hjf hje.1
      · intro j o hlj hjf hje
        simp only [List.mem_cons] at hjf
        rcases hjf with rfl | hjf
        · rw [lookupOp_updateOp_of_eq hfid hl] at hlj
          cases hlj
          exact ⟨exec op.opType op.params otp, rfl, hr⟩
        · have hji : j ≠ i := fun h => hfa (h ▸ hjf)
          rw [lookupOp_updateOp_ne hfid hji] at hlj
          simp only [List.mem_append, List.mem_singleton] at hje
          rcases hje with hje | rfl
          · exact hInv.failDispatch j o hlj hjf hje
          · exact absurd hjf hfa
      · intro j hjc
        simp only [List.mem_cons]
        push_neg
        exact ⟨fun h => hc (h ▸ hjc), hInv.disj j hjc⟩
      · intro j hje
        simp only [List.mem_append, List.mem_singleton] at hje
        rcases hje with hje | rfl
        · rcases hInv.execSettled j hje with h | h
          · exact Or.inl h
          · exact Or.inr (List.mem_cons_of_mem i h)
        · exact Or.inr (List.mem_cons_self j st.failedIds)
      · intro j hje op₀ hl₀
        simp only [List.mem_append, List.mem_singleton] at hje
        rcases hje with hje | rfl
        · exact hInv.execDep j hje op₀ hl₀
        · exact hdep op₀ hl₀
      · intro p hp hro
        simp only [List.mem_append, List.mem_singleton] at hp
        rcases hp with hp | rfl
        · rw [hInv.otpRes p hp hro]
          rfl
        · simp only at hro
          rw [hro]
          simp
      · intro j hj
        exact List.mem_append.mpr (Or.inl (hInv.compDispatch j hj))

/-! ### Branch equations and step facts for the ready filter -/

theorem readyPass_cons_none {st : ExecSt} {i : String} (rest : List String)
    (hl : lookupOp st.ops i = none) :
    readyPass st (i :: rest) = readyPass st rest := by
  simp [readyPass, hl]

theorem readyPass_cons_done {st : ExecSt} {i : String} {op : Operation}
    (rest : List String) (hl : lookupOp st.ops i = some op)
    (h1 : i ∈ st.completedIds ∨ i ∈ st.failedIds) :
    readyPass st (i :: rest) = readyPass st rest := by
  simp [readyPass, hl, h1]

theorem readyPass_cons_nodep {st : ExecSt} {i : String} {op : Operation}
    (rest : List String) (hl : lookupOp st.ops i = some op)
    (h1 : ¬(i ∈ st.completedIds ∨ i ∈ st.failedIds)) (hd : op.dependsOn = none) :
    readyPass st (i :: rest) =
      (i :: (readyPass st rest).1, (readyPass st rest).2) := by
  simp [readyPass, hl, h1, hd]

theorem readyPass_cons_depDone {st : ExecSt} {i d : String} {op : Operation}
    (rest : List String) (hl : lookupOp st.ops i = some op)
    (h1 : ¬(i ∈ st.completedIds ∨ i ∈ st.failedIds)) (hd : op.dependsOn = some d)
    (hdc : d ∈ st.completedIds) :
    readyPass st (i :: rest) =
      (i :: (readyPass st rest).1, (readyPass st rest).2) := by
  simp [readyPass, hl, h1, hd, hdc]

theorem readyPass_cons_depFailed {st : ExecSt} {i d : String} {op : Operation}
    (rest : List String) (hl : lookupOp st.ops i = some op)
    (h1 : ¬(i ∈ st.completedIds ∨ i ∈ st.failedIds)) (hd : op.dependsOn = some d)
    (hdc : d ∉ st.completedIds) (hdf : d ∈ st.failedIds) :
    readyPass st (i :: rest) = readyPass (cascadeFail st i op) rest := by
  simp [readyPass, hl, h1, hd, hdc, hdf]

theorem readyPass_cons_depPending {st : ExecSt} {i d : String} {op : Operation}
    (rest : List String) (hl : lookupOp st.ops i = some op)
    (h1 : ¬(i ∈ st.completedIds ∨ i ∈ st.failedIds)) (hd : op.dependsOn = some d)
    (hdc : d ∉ st.completedIds) (hdf : d ∉ st.failedIds) :
    readyPass st (i :: rest) = readyPass st rest := by
  simp [readyPass, hl, h1, hd, hdc, hdf]

theorem readyPass_frame (l : List String) : ∀ st : ExecSt,
    (readyPass st l).2.completedIds = st.completedIds ∧
    (readyPass st l).2.otpRequired = st.otpRequired ∧
    (readyPass st l).2.executed = st.executed := by
  induction l with
  | nil => intro st; exact ⟨rfl, rfl, rfl⟩
  | cons i rest ih =>
    intro st
    cases hl : lookupOp st.ops i with
    | none => rw [readyPass_cons_none rest hl]; exact ih st
    | some op =>
      by_cases h1 : i ∈ st.completedIds ∨ i ∈ st.failedIds
      · rw [readyPass_cons_done rest hl h1]; exact ih st
      · cases hd : op.dependsOn with
        | none => rw [readyPass_cons_nodep rest hl h1 hd]; exact ih st
        | some d =>
          by_cases hdc : d ∈ st.completedIds
          · rw [readyPass_cons_depDone rest hl h1 hd hdc]; exact ih st
          · by_cases hdf : d ∈ st.failedIds
            · rw [readyPass_cons_depFailed rest hl h1 hd hdc hdf]
              have := ih (cascadeFail st i op)
              simpa [cascadeFail] using this
            · rw [readyPass_cons_depPending rest hl h1 hd hdc hdf]; exact ih st

theorem readyPass_failed_mono (l : List String) : ∀ st : ExecSt, ∀ j : String,
    j ∈ st.failedIds → j ∈ (readyPass st l).2.failedIds := by
  induction l with
  | nil => intro st j h; exact h
  | cons i rest ih =>
    intro st j h
    cases hl : lookupOp st.ops i with
    | none => rw [readyPass_cons_none rest hl]; exact ih st j h
    | some op =>
      by_cases h1 : i ∈ st.completedIds ∨ i ∈ st.failedIds
      · rw [readyPass_cons_done rest hl h1]; exact ih st j h
      · cases hd : op.dependsOn with
        | none => rw [readyPass_cons_nodep rest hl h1 hd]; exact ih st j h
        | some d =>
          by_cases hdc : d ∈ st.completedIds
          · rw [readyPass_cons_depDone rest hl h1 hd hdc]; exact ih st j h
          · by_cases hdf : d ∈ st.failedIds
            · rw [readyPass_cons_depFailed rest hl h1 hd hdc hdf]
              exact ih (cascadeFail st i op) j (List.mem_cons_of_mem i h)
            · rw [readyPass_cons_depPending rest hl h1 hd hdc hdf]; exact ih st j h

theorem readyPass_failed_sub (l : List String) : ∀ st : ExecSt, ∀ j : String,
    j ∈ (readyPass st l).2.failedIds → j ∈ st.failedIds ∨ j ∈ l := by
  induction l with
  | nil => intro st j h; exact Or.inl h
  | cons i rest ih =>
    intro st j h
    cases hl : lookupOp st.ops i with
    | none =>
      rw [readyPass_cons_none rest hl] at h
      rcases ih st j h with h' | h'
      · exact Or.inl h'
      · exact Or.inr (List.mem_cons_of_mem i h')
    | some op =>
      by_cases h1 : i ∈ st.completedIds ∨ i ∈ st.failedIds
      · rw [readyPass_cons_done rest hl h1] at h
        rcases ih st j h with h' | h'
        · exact Or.inl h'
        · exact Or.inr (List.mem_cons_of_mem i h')
      · cases hd : op.dependsOn with
        | none =>
          rw [readyPass_cons_nodep rest hl h1 hd] at h
          rcases ih st j h with h' | h'
          · exact Or.inl h'
          · exact Or.inr (List.mem_cons_of_mem i h')
        | some d =>
          by_cases hdc : d ∈ st.completedIds
          · rw [readyPass_cons_depDone rest hl h1 hd hdc] at h
            rcases ih st j h with h' | h'
            · exact Or.inl h'
            · exact Or.inr (List.mem_cons_of_mem i h')
          · by_cases hdf : d ∈ st.failedIds
            · rw [readyPass_cons_depFailed rest hl h1 hd hdc hdf] at h
              rcases ih (cascadeFail st i op) j h with h' | h'
              · simp only [cascadeFail, List.mem_cons] at h'
                rcases h' with rfl | h'
                · exact Or.inr (List.mem_cons_self j rest)
                · exact Or.inl h'
              · exact Or.inr (List.mem_cons_of_mem i h')
            · rw [readyPass_cons_depPending rest hl h1 hd hdc hdf] at h
              rcases ih st j h with h' | h'
              · exact Or.inl h'
              · exact Or.inr (List.mem_cons_of_mem i h')

theorem loopInv_readyPass {ops₀ : List Operation} (l : List String) :
    ∀ st : ExecSt, LoopInv ops₀ st → LoopInv ops₀ (readyPass st l).2 := by
  induction l with
  | nil => intro st h; exact h
  | cons i rest ih =>
    intro st hInv
    cases hl : lookupOp st.ops i with
    | none => rw [readyPass_cons_none rest hl]; exact ih st hInv
    | some op =>
      by_cases h1 : i ∈ st.completedIds ∨ i ∈ st.failedIds
      · rw [readyPass_cons_done rest hl h1]; exact ih st hInv
      · push_neg at h1
        cases hd : op.dependsOn with
        | none => rw [readyPass_cons_nodep rest hl (by push_neg; exact h1) hd]; exact ih st hInv
        | some d =>
          by_cases hdc : d ∈ st.completedIds
          · rw [readyPass_cons_depDone rest hl (by push_neg; exact h1) hd hdc]
            exact ih st hInv
          · by_cases hdf : d ∈ st.failedIds
            · rw [readyPass_cons_depFailed rest hl (by push_neg; exact h1) hd hdc hdf]
              exact ih (cascadeFail st i op) (loopInv_cascadeFail hInv h1.1 h1.2)
            · rw [readyPass_cons_depPending rest hl (by push_neg; exact h1) hd hdc hdf]
              exact ih st hInv

theorem readyPass_ready_spec (l : List String) : ∀ st : ExecSt,
    ∀ i ∈ (readyPass st l).1,
      i ∈ l ∧ i ∉ st.completedIds ∧ i ∉ st.failedIds ∧
      ∃ op, lookupOp st.ops i = some op ∧
        (op.dependsOn = none ∨ ∃ d, op.dependsOn = some d ∧ d ∈ st.completedIds) := by
  induction l with
  | nil => intro st i h; cases h
  | cons i₀ rest ih =>
    intro st i h
    cases hl : lookupOp st.ops i₀ with
    | none =>
      rw [readyPass_cons_none rest hl] at h
      obtain ⟨ha, hb, hc, hd⟩ := ih st i h
      exact ⟨List.mem_cons_of_mem i₀ ha, hb, hc, hd⟩
    | some op =>
      by_cases h1 : i₀ ∈ st.completedIds ∨ i₀ ∈ st.failedIds
      · rw [readyPass_cons_done rest hl h1] at h
        obtain ⟨ha, hb, hc, hd⟩ := ih st i h
        exact ⟨List.mem_cons_of_mem i₀ ha, hb, hc, hd⟩
      · cases hd : op.dependsOn with
        | none =>
          rw [readyPass_cons_nodep rest hl h1 hd] at h
          simp only [List.mem_cons] at h
          rcases h with rfl | h
          · push_neg at h1
            exact ⟨List.mem_cons_self i rest, h1.1, h1.2, op, hl, Or.inl hd⟩
          · obtain ⟨ha, hb, hc, hd'⟩ := ih st i h
            exact ⟨List.mem_cons_of_mem i₀ ha, hb, hc, hd'⟩
        | some d =>
          by_cases hdc : d ∈ st.completedIds
          · rw [readyPass_cons_depDone rest hl h1 hd hdc] at h
            simp only [List.mem_cons] at h
            rcases h with rfl | h
            · push_neg at h1
              exact ⟨List.mem_cons_self i rest, h1.1, h1.2, op, hl, Or.inr ⟨d, hd, hdc⟩⟩
            · obtain ⟨ha, hb, hc, hd'⟩ := ih st i h
              exact ⟨List.mem_cons_of_mem i₀ ha, hb, hc, hd'⟩
          · by_cases hdf : d ∈ st.failedIds
            · rw [readyPass_cons_depFailed rest hl h1 hd hdc hdf] at h
              obtain ⟨ha, hb, hc, op', hlo, hdep⟩ := ih (cascadeFail st i₀ op) i h
              have hops : (cascadeFail st i₀ op).ops = updateOp st.ops i₀ failSkipUpd := rfl
              simp only [cascadeFail, List.mem_cons] at hb hc
              push_neg at hc
              rw [hops, lookupOp_updateOp_ne failSkipUpd_id hc.1] at hlo
              refine ⟨List.mem_cons_of_mem i₀ ha, hb, hc.2, op', hlo, ?_⟩
              rcases hdep with h' | ⟨d', hd', hdc'⟩
              · exact Or.inl h'
              · exact Or.inr ⟨d', hd', by simpa [cascadeFail] using hdc'⟩
            · rw [readyPass_cons_depPending rest hl h1 hd hdc hdf] at h
              obtain ⟨ha, hb, hc, hd'⟩ := ih st i h
              exact ⟨List.mem_cons_of_mem i₀ ha, hb, hc, hd'⟩

theorem readyPass_ready_sublist (l : List String) : ∀ st : ExecSt,
    ((readyPass st l).1).Sublist l := by
  induction l with
  | nil => intro st; simp [readyPass]
  | cons i rest ih =>
    intro st
    cases hl : lookupOp st.ops i with
    | none => rw [readyPass_cons_none rest hl]; exact (ih st).cons i
    | some op =>
      by_cases h1 : i ∈ st.completedIds ∨ i ∈ st.failedIds
      · rw [readyPass_cons_done rest hl h1]; exact (ih st).cons i
      · cases hd : op.dependsOn with
        | none => rw [readyPass_cons_nodep rest hl h1 hd]; exact (ih st).cons₂ i
        | some d =>
          by_cases hdc : d ∈ st.completedIds
          · rw [readyPass_cons_depDone rest hl h1 hd hdc]; exact (ih st).cons₂ i
          · by_cases hdf : d ∈ st.failedIds
            · rw [readyPass_cons_depFailed rest hl h1 hd hdc hdf]
              exact (ih (cascadeFail st i op)).cons i
            · rw [readyPass_cons_depPending rest hl h1 hd hdc hdf]; exact (ih st).cons i

theorem readyPass_ready_not_failed (l : List String) : ∀ st : ExecSt, l.Nodup →
    ∀ i ∈ (readyPass st l).1, i ∉ (readyPass st l).2.failedIds := by
  induction l with
  | nil => intro st _ i h; cases h
  | cons i₀ rest ih =>
    intro st hnd i h
    rw [List.nodup_cons] at hnd
    cases hl : lookupOp st.ops i₀ with
    | none =>
      rw [readyPass_cons_none rest hl] at h ⊢
      exact ih st hnd.2 i h
    | some op =>
      by_cases h1 : i₀ ∈ st.completedIds ∨ i₀ ∈ st.failedIds
      · rw [readyPass_cons_done rest hl h1] at h ⊢
        exact ih st hnd.2 i h
      · cases hd : op.dependsOn with
        | none =>
          rw [readyPass_cons_nodep rest hl h1 hd] at h ⊢
          simp only [List.mem_cons] at h
          rcases h with rfl | h
          · intro hmem
            rcases readyPass_failed_sub rest st i hmem with h' | h'
            · push_neg at h1
              exact h1.2 h'
            · exact hnd.1 h'
          · exact ih st hnd.2 i h
        | some d =>
          by_cases hdc : d ∈ st.completedIds
          · rw [readyPass_cons_depDone rest hl h1 hd hdc] at h ⊢
            simp only [List.mem_cons] at h
            rcases h with rfl | h
            · intro hmem
              rcases readyPass_failed_sub rest st i hmem with h' | h'
              · push_neg at h1
                exact h1.2 h'
              · exact hnd.1 h'
            · exact ih st hnd.2 i h
          · by_cases hdf : d ∈ st.failedIds
            · rw [readyPass_cons_depFailed rest hl h1 hd hdc hdf] at h ⊢
              exact ih (cascadeFail st i₀ op) hnd.2 i h
            · rw [readyPass_cons_depPending rest hl h1 hd hdc hdf] at h ⊢
              exact ih st hnd.2 i h

theorem readyPass_ops_ids (l : List String) : ∀ st : ExecSt,
    (readyPass st l).2.ops.map (fun o => o.id) = st.ops.map (fun o => o.id) := by
  induction l with
  | nil => intro st; rfl
  | cons i rest ih =>
    intro st
    cases hl : lookupOp st.ops i with
    | none => rw [readyPass_cons_none rest hl]; exact ih st
    | some op =>
      by_cases h1 : i ∈ st.completedIds ∨ i ∈ st.failedIds
      · rw [readyPass_cons_done rest hl h1]; exact ih st
      · cases hd : op.dependsOn with
        | none => rw [readyPass_cons_nodep rest hl h1 hd]; exact ih st
        | some d =>
          by_cases hdc : d ∈ st.completedIds
          · rw [readyPass_cons_depDone rest hl h1 hd hdc]; exact ih st
          · by_cases hdf : d ∈ st.failedIds
            · rw [readyPass_cons_depFailed rest hl h1 hd hdc hdf]
              rw [ih (cascadeFail st i op)]
              exact updateOp_map_id failSkipUpd_id
            · rw [readyPass_cons_depPending rest hl h1 hd hdc hdf]; exact ih st

theorem processOne_ops_ids (exec : ExecFn) (otp : Option String) (st : ExecSt)
    (i : String) :
    (processOne exec otp st i).ops.map (fun o => o.id) = st.ops.map (fun o => o.id) := by
  cases hl : lookupOp st.ops i with
  | none => simp [processOne, hl]
  | some op =>
    by_cases hr : (exec op.opType op.params otp).exitCode = 0 <;>
      simp [processOne, hl, hr, updateOp_map_id (settleUpd_id _ _)]

theorem foldProcess_ops_ids (exec : ExecFn) (otp : Option String)
    (ready : List String) : ∀ st : ExecSt,
    (List.foldl (processOne exec otp) st ready).ops.map (fun o => o.id) =
      st.ops.map (fun o => o.id) := by
  induction ready with
  | nil => intro st; rfl
  | cons i rest ih =>
    intro st
    rw [List.foldl_cons, ih (processOne exec otp st i), processOne_ops_ids]

theorem processOne_sets_mono (exec : ExecFn) (otp : Option String) (st : ExecSt)
    (i j : String) :
    (j ∈ st.completedIds → j ∈ (processOne exec otp st i).completedIds) ∧
    (j ∈ st.failedIds → j ∈ (processOne exec otp st i).failedIds) := by
  cases hl : lookupOp st.ops i with
  | none => simp [processOne, hl]
  | some op =>
    by_cases hr : (exec op.opType op.params otp).exitCode = 0 <;>
      constructor <;> intro h <;>
        simp [processOne, hl, hr, List.mem_cons_of_mem, h]

theorem foldProcess_sets_mono (exec : ExecFn) (otp : Option String)
    (ready : List String) : ∀ st : ExecSt, ∀ j : String,
    (j ∈ st.completedIds →
      j ∈ (List.foldl (processOne exec otp) st ready).completedIds) ∧
    (j ∈ st.failedIds →
      j ∈ (List.foldl (processOne exec otp) st ready).failedIds) := by
  induction ready with
  | nil => intro st j; exact ⟨id, id⟩
  | cons i rest ih =>
    intro st j
    rw [List.foldl_cons]
    constructor
    · intro h
      exact (ih (processOne exec otp st i) j).1
        ((processOne_sets_mono exec otp st i j).1 h)
    · intro h
      exact (ih (processOne exec otp st i) j).2
        ((processOne_sets_mono exec otp st i j).2 h)

theorem processOne_settles (exec : ExecFn) (otp : Option String) (st : ExecSt)
    (i : String) (hsome : ∃ op, lookupOp st.ops i = some op) :
    i ∈ (processOne exec otp st i).completedIds ∨
      i ∈ (processOne exec otp st i).failedIds := by
  obtain ⟨op, hl⟩ := hsome
  by_cases hr : (exec op.opType op.params otp).exitCode = 0
  · exact Or.inl (by simp [processOne, hl, hr])
  · exact Or.inr (by simp [processOne, hl, hr])

/-! ### Termination of the wave loop -/

theorem filter_length_le_of_imp {α : Type} {p q : α → Bool} (l : List α)
    (h : ∀ x ∈ l, q x = true → p x = true) :
    (l.filter q).length ≤ (l.filter p).length := by
  induction l with
  | nil => exact Nat.le_refl 0
  | cons a rest ih =>
    have hrest := ih (fun x hx => h x (List.mem_cons_of_mem a hx))
    by_cases hq : q a = true
    · have hp := h a (List.mem_cons_self a rest) hq
      simp [List.filter_cons, hq, hp]
      exact hrest
    · rw [List.filter_cons]
      simp only [Bool.not_eq_true] at hq
      rw [hq]
      by_cases hp : p a = true
      · simp [hp]
        exact Nat.le_succ_of_le hrest
      · simp only [Bool.not_eq_true] at hp
        simp [hp]
        exact hrest

theorem filter_length_lt_of_imp {α : Type} {p q : α → Bool} (l : List α)
    (h : ∀ x ∈ l, q x = true → p x = true) (x₀ : α) (hx : x₀ ∈ l)
    (hp : p x₀ = true) (hq : q x₀ = false) :
    (l.filter q).length < (l.filter p).length := by
  induction l with
  | nil => cases hx
  | cons a rest ih =>
    have hrest_le := filter_length_le_of_imp rest
      (fun x hxm => h x (List.mem_cons_of_mem a hxm))
    rcases List.mem_cons.mp hx with rfl | hx'
    · rw [List.filter_cons, List.filter_cons, hq, hp]
      simp only [cond_false, cond_true, List.length_cons]
      exact Nat.lt_succ_of_le hrest_le
    · have ihrest := ih (fun x hxm => h x (List.mem_cons_of_mem a hxm)) hx'
      rw [List.filter_cons, List.filter_cons]
      by_cases hqa : q a = true
      · have hpa := h a (List.mem_cons_self a rest) hqa
        rw [hqa, hpa]
        simpa using ihrest
      · simp only [Bool.not_eq_true] at hqa
        rw [hqa]
        by_cases hpa : p a = true
        · rw [hpa]
          simp only [cond_false, cond_true, List.length_cons]
          exact Nat.lt_succ_of_lt ihrest
        · simp only [Bool.not_eq_true] at hpa
          rw [hpa]
          simpa using ihrest

/-- Number of snapshot ids still unresolved: the strictly decreasing
measure of the wave loop. -/
def remainCount (l : List String) (st : ExecSt) : Nat :=
  (l.filter (fun i => decide (i ∉ st.completedIds) && decide (i ∉ st.failedIds))).length

theorem execLoop_total (exec : ExecFn) (otp : Option String) (l : List String) :
    ∀ fuel : Nat, ∀ st : ExecSt, remainCount l st < fuel →
    (execLoop exec otp l fuel st).isSome = true := by
  intro fuel
  induction fuel with
  | zero => intro st h; cases h
  | succ fuel ih =>
    intro st hcnt
    simp only [execLoop]
    cases hready : (readyPass st l).1 with
    | nil => simp [hready]
    | cons i₀ rs =>
      by_cases hstall : ((readyPass st l).2.otpRequired && otpMissing otp) = true
      · simp [hready, hstall]
      · rw [if_neg (by simp), if_neg hstall]
        apply ih
        -- the head of the ready set gets settled, strictly shrinking the measure
        have hspec := readyPass_ready_spec l st i₀
          (by rw [hready]; exact List.mem_cons_self i₀ rs)
        obtain ⟨hil, hic, hif, op, hlo, _⟩ := hspec
        have hmemid : i₀ ∈ st.ops.map (fun o => o.id) :=
          List.mem_map.mpr ⟨op, lookupOp_mem hlo, lookupOp_id hlo⟩
        have hsome2 : ∃ op', lookupOp (readyPass st l).2.ops i₀ = some op' :=
          lookupOp_isSome_of_mem_id (by rw [readyPass_ops_ids]; exact hmemid)
        have hsettled : i₀ ∈ (processOne exec otp (readyPass st l).2 i₀).completedIds ∨
            i₀ ∈ (processOne exec otp (readyPass st l).2 i₀).failedIds :=
          processOne_settles exec otp _ i₀ hsome2
        have hfoldsettled :
            i₀ ∈ (List.foldl (processOne exec otp) (readyPass st l).2 (i₀ :: rs)).completedIds ∨
            i₀ ∈ (List.foldl (processOne exec otp) (readyPass st l).2 (i₀ :: rs)).failedIds := by
          rw [List.foldl_cons]
          rcases hsettled with h | h
          · exact Or.inl ((foldProcess_sets_mono exec otp rs _ i₀).1 h)
          · exact Or.inr ((foldProcess_sets_mono exec otp rs _ i₀).2 h)
        have hmono : ∀ x ∈ l,
            (fun i => decide (i ∉ (List.foldl (processOne exec otp) (readyPass st l).2 (i₀ :: rs)).completedIds)
              && decide (i ∉ (List.foldl (processOne exec otp) (readyPass st l).2 (i₀ :: rs)).failedIds)) x = true →
            (fun i => decide (i ∉ st.completedIds) && decide (i ∉ st.failedIds)) x = true := by
          intro x _ hx
          simp only [Bool.and_eq_true, decide_eq_true_eq] at hx ⊢
          constructor
          · intro hmem
            apply hx.1
            apply (foldProcess_sets_mono exec otp (i₀ :: rs) _ x).1
            rw [(readyPass_frame l st).1]
            exact hmem
          · intro hmem
            apply hx.2
            apply (foldProcess_sets_mono exec otp (i₀ :: rs) _ x).2
            exact readyPass_failed_mono l st x hmem
        have hlt : remainCount l
            (List.foldl (processOne exec otp) (readyPass st l).2 (i₀ :: rs)) <
            remainCount l st := by
          apply filter_length_lt_of_imp l hmono i₀ hil
          · simp only [Bool.and_eq_true, decide_eq_true_eq]
            exact ⟨hic, hif⟩
          · rcases hfoldsettled with h | h
            · have hd1 : decide (i₀ ∉ (List.foldl (processOne exec otp)
                  (readyPass st l).2 (i₀ :: rs)).completedIds) = false := by
                simp only [decide_eq_false_iff_not, not_not]
                exact h
              rw [hd1, Bool.false_and]
            · have hd1 : decide (i₀ ∉ (List.foldl (processOne exec otp)
                  (readyPass st l).2 (i₀ :: rs)).failedIds) = false := by
                simp only [decide_eq_false_iff_not, not_not]
                exact h
              rw [hd1, Bool.and_false]
        exact Nat.lt_of_lt_of_le hlt (Nat.lt_succ_iff.mp hcnt)

/-- The fuel supplied by `executeRunOpt` always suffices. -/
theorem executeRunOpt_isSome (exec : ExecFn) (otp : Option String)
    (ops : List Operation) : (executeRunOpt exec otp ops).isSome = true := by
  apply execLoop_total
  have : remainCount (approvedIdsOf ops) (initExecSt ops) ≤ (approvedIdsOf ops).length := by
    rw [remainCount]
    exact Nat.le_trans (List.length_filter_le _ _) (Nat.le_refl _)
  exact Nat.lt_succ_of_le this

/-! ### Invariant preservation through a whole wave and the whole loop -/

theorem processOne_lookup_ne (exec : ExecFn) (otp : Option String) (st : ExecSt)
    (i : String) {j : String} (hne : j ≠ i) :
    lookupOp (processOne exec otp st i).ops j = lookupOp st.ops j := by
  cases hl : lookupOp st.ops i with
  | none => simp [processOne, hl]
  | some op =>
    by_cases hr : (exec op.opType op.params otp).exitCode = 0 <;>
      simp [processOne, hl, hr, lookupOp_updateOp_ne (settleUpd_id _ _) hne]

theorem processOne_comp_sub (exec : ExecFn) (otp : Option String) (st : ExecSt)
    (i j : String) (h : j ∈ (processOne exec otp st i).completedIds) :
    j = i ∨ j ∈ st.completedIds := by
  cases hl : lookupOp st.ops i with
  | none =>
    rw [show processOne exec otp st i = st by simp [processOne, hl]] at h
    exact Or.inr h
  | some op =>
    by_cases hr : (exec op.opType op.params otp).exitCode = 0
    · simp only [processOne, hl, hr, if_pos] at h
      simp only [List.mem_cons] at h
      rcases h with rfl | h
      · exact Or.inl rfl
      · exact Or.inr h
    · simp only [processOne, hl, hr, if_neg, if_false] at h
      exact Or.inr h

theorem processOne_fail_sub (exec : ExecFn) (otp : Option String) (st : ExecSt)
    (i j : String) (h : j ∈ (processOne exec otp st i).failedIds) :
    j = i ∨ j ∈ st.failedIds := by
  cases hl : lookupOp st.ops i with
  | none =>
    rw [show processOne exec otp st i = st by simp [processOne, hl]] at h
    exact Or.inr h
  | some op =>
    by_cases hr : (exec op.opType op.params otp).exitCode = 0
    · simp only [processOne, hl, hr, if_pos] at h
      exact Or.inr h
    · simp only [processOne, hl, hr, if_neg, if_false] at h
      simp only [List.mem_cons] at h
      rcases h with rfl | h
      · exact Or.inl rfl
      · exact Or.inr h

theorem loopInv_foldProcess {ops₀ : List Operation} (exec : ExecFn)
    (otp : Option String) (ready : List String) : ∀ st : ExecSt,
    LoopInv ops₀ st → ready.Nodup →
    (∀ i ∈ ready, i ∉ st.completedIds ∧ i ∉ st.failedIds ∧
      ∃ op, lookupOp st.ops i = some op ∧
        (op.dependsOn = none ∨ ∃ d, op.dependsOn = some d ∧ d ∈ st.completedIds)) →
    LoopInv ops₀ (List.foldl (processOne exec otp) st ready) := by
  induction ready with
  | nil => intro st hInv _ _; exact hInv
  | cons i rest ih =>
    intro st hInv hnd hprep
    rw [List.nodup_cons] at hnd
    obtain ⟨hic, hif, op, hlo, hdepOk⟩ := hprep i (List.mem_cons_self i rest)
    have hdep₀ : ∀ op₀, lookupOp ops₀ i = some op₀ →
        op₀.dependsOn = none ∨ ∃ d, op₀.dependsOn = some d ∧ d ∈ st.completedIds := by
      intro op₀ hl₀
      have hd := hInv.deps i
      rw [hlo, hl₀] at hd
      simp only [Option.map_some'] at hd
      have : op.dependsOn = op₀.dependsOn := Option.some.inj hd
      rw [← this]
      exact hdepOk
    rw [List.foldl_cons]
    apply ih (processOne exec otp st i)
      (loopInv_processOne hInv hic hif hdep₀ exec otp) hnd.2
    intro i' hi'
    obtain ⟨hic', hif', op', hlo', hdepOk'⟩ := hprep i' (List.mem_cons_of_mem i hi')
    have hne : i' ≠ i := fun h => hnd.1 (h ▸ hi')
    refine ⟨?_, ?_, op', ?_, ?_⟩
    · intro hmem
      rcases processOne_comp_sub exec otp st i i' hmem with h | h
      · exact hne h
      · exact hic' h
    · intro hmem
      rcases processOne_fail_sub exec otp st i i' hmem with h | h
      · exact hne h
      · exact hif' h
    · rw [processOne_lookup_ne exec otp st i hne]
      exact hlo'
    · rcases hdepOk' with h | ⟨d, hd, hdc⟩
      · exact Or.inl h
      · exact Or.inr ⟨d, hd, (processOne_sets_mono exec otp st i d).1 hdc⟩

theorem execLoop_inv_lastPass {ops₀ : List Operation} (exec : ExecFn)
    (otp : Option String) (l : List String) (hnd : l.Nodup) :
    ∀ fuel : Nat, ∀ st fin : ExecSt, LoopInv ops₀ st →
    execLoop exec otp l fuel st = some fin →
    LoopInv ops₀ fin ∧ ∃ stp : ExecSt, LoopInv ops₀ stp ∧ (readyPass stp l).2 = fin := by
  intro fuel
  induction fuel with
  | zero => intro st fin _ h; cases h
  | succ fuel ih =>
    intro st fin hInv h
    simp only [execLoop] at h
    by_cases hready : (readyPass st l).1.isEmpty = true
    · rw [if_pos hready] at h
      cases h
      exact ⟨loopInv_readyPass l st hInv, st, hInv, rfl⟩
    · rw [if_neg hready] at h
      by_cases hstall : ((readyPass st l).2.otpRequired && otpMissing otp) = true
      · rw [if_pos hstall] at h
        cases h
        exact ⟨loopInv_readyPass l st hInv, st, hInv, rfl⟩
      · rw [if_neg hstall] at h
        have hInvP : LoopInv ops₀ (readyPass st l).2 := loopInv_readyPass l st hInv
        have hprep : ∀ i ∈ (readyPass st l).1,
            i ∉ (readyPass st l).2.completedIds ∧ i ∉ (readyPass st l).2.failedIds ∧
            ∃ op, lookupOp (readyPass st l).2.ops i = some op ∧
              (op.dependsOn = none ∨
                ∃ d, op.dependsOn = some d ∧ d ∈ (readyPass st l).2.completedIds) := by
          intro i hi
          obtain ⟨hil, hic, hif, op, hlo, hdepOk⟩ := readyPass_ready_spec l st i hi
          have hifP : i ∉ (readyPass st l).2.failedIds :=
            readyPass_ready_not_failed l st hnd i hi
          have hicP : i ∉ (readyPass st l).2.completedIds := by
            rw [(readyPass_frame l st).1]
            exact hic
          have hlook : lookupOp (readyPass st l).2.ops i = some op := by
            rw [hInvP.untouched i hicP hifP, ← hInv.untouched i hic hif]
            exact hlo
          refine ⟨hicP, hifP, op, hlook, ?_⟩
          rcases hdepOk with h' | ⟨d, hd, hdc⟩
          · exact Or.inl h'
          · refine Or.inr ⟨d, hd, ?_⟩
            rw [(readyPass_frame l st).1]
            exact hdc
        have hnr : ((readyPass st l).1).Nodup := (readyPass_ready_sublist l st).nodup hnd
        exact ih _ fin
          (loopInv_foldProcess exec otp (readyPass st l).1 (readyPass st l).2 hInvP hnr hprep) h

/-- Every `/execute` run satisfies the loop invariant at its settled state,
and that state is the output of a final ready pass over the snapshot. -/
theorem executeRun_lastPass (exec : ExecFn) (otp : Option String)
    (ops₀ : List Operation) (hnd : ((approvedIdsOf ops₀)).Nodup) :
    LoopInv ops₀ (executeRun exec otp ops₀) ∧
    ∃ stp : ExecSt, LoopInv ops₀ stp ∧
      (readyPass stp (approvedIdsOf ops₀)).2 = executeRun exec otp ops₀ := by
  obtain ⟨fin, hfin⟩ := Option.isSome_iff_exists.mp (executeRunOpt_isSome exec otp ops₀)
  have hrun : executeRun exec otp ops₀ = fin := by
    rw [executeRun, hfin]
    rfl
  rw [hrun]
  exact execLoop_inv_lastPass exec otp (approvedIdsOf ops₀) hnd _ (initExecSt ops₀) fin
    (loopInv_init ops₀) hfin

/-! ### Cascade closure of a ready pass -/

theorem get?_lt_split {α : Type} {l : List α} {i j : Nat} {a b : α} (hij : i < j)
    (ha : l.get? i = some a) (hb : l.get? j = some b) :
    ∃ u v, l = u ++ a :: v ∧ b ∈ v := by
  induction l generalizing i j with
  | nil => cases ha
  | cons x rest ih =>
    cases i with
    | zero =>
      rw [List.get?_cons_zero] at ha
      cases ha
      cases j with
      | zero => exact absurd hij (Nat.lt_irrefl 0)
      | succ j' =>
        rw [List.get?_cons_succ] at hb
        exact ⟨[], rest, rfl, List.get?_mem hb⟩
    | succ i' =>
      cases j with
      | zero => exact absurd hij (Nat.not_lt_zero _)
      | succ j' =>
        rw [List.get?_cons_succ] at ha hb
        obtain ⟨u, v, heq, hmem⟩ := ih (Nat.lt_of_succ_lt_succ hij) ha hb
        exact ⟨x :: u, v, by rw [heq]; rfl, hmem⟩

theorem approvedIdsOf_append (u v : List Operation) :
    approvedIdsOf (u ++ v) = approvedIdsOf u ++ approvedIdsOf v := by
  simp [approvedIdsOf, List.filter_append]

theorem approvedIdsOf_cons_approved {op : Operation} (v : List Operation)
    (h : op.status = OpStatus.approved) :
    approvedIdsOf (op :: v) = op.id :: approvedIdsOf v := by
  simp [approvedIdsOf, List.filter_cons, h]

/-- Cascade closure of one full ready pass: if the dependency `idA` of an
approved snapshot entry `idB` is in the failed set once the pass is over —
either already at pass start, or because `idA` occurs before `idB` in the
walked snapshot — then `idB` itself got resolved by the pass. -/
theorem readyPass_cascade_closure {ops₀ : List Operation} {idA idB : String}
    (l : List String) : ∀ st : ExecSt, LoopInv ops₀ st → l.Nodup →
    ∀ opB, lookupOp st.ops idB = some opB → opB.dependsOn = some idA →
    (idA ∈ st.failedIds ∨ ∃ xs ys, l = xs ++ idA :: ys ∧ idB ∈ ys) →
    idB ∈ l →
    idA ∈ (readyPass st l).2.failedIds →
    idB ∈ (readyPass st l).2.failedIds ∨ idB ∈ (readyPass st l).2.completedIds := by
  induction l with
  | nil =>
    intro st _ _ _ _ _ _ hBl _
    cases hBl
  | cons i rest ih =>
    intro st hInv hnd opB hlookB hdepB hbefore hBl hfinA
    rw [List.nodup_cons] at hnd
    by_cases hiB : i = idB
    · subst hiB
      have hfailA : idA ∈ st.failedIds := by
        rcases hbefore with h | ⟨xs, ys, heq, hmem⟩
        · exact h
        · cases xs with
          | nil =>
            simp only [List.nil_append] at heq
            cases heq
            exact absurd hmem hnd.1
          | cons x xs' =>
            simp only [List.cons_append, List.cons.injEq] at heq
            rw [heq.2] at hnd
            exact absurd (List.mem_append_right _ (List.mem_cons_of_mem _ hmem)) hnd.1
      by_cases h1 : i ∈ st.completedIds ∨ i ∈ st.failedIds
      · rw [readyPass_cons_done rest hlookB h1]
        rcases h1 with h1 | h1
        · right
          rw [(readyPass_frame rest st).1]
          exact h1
        · left
          exact readyPass_failed_mono rest st i h1
      · have hdA_comp : idA ∉ st.completedIds := fun hc => (hInv.disj idA hc) hfailA
        rw [readyPass_cons_depFailed rest hlookB h1 hdepB hdA_comp hfailA]
        left
        exact readyPass_failed_mono rest (cascadeFail st i opB) i (by simp [cascadeFail])
    · have hBrest : idB ∈ rest := by
        rcases List.mem_cons.mp hBl with rfl | h
        · exact absurd rfl hiB
        · exact h
      have hkey : idA ∈ st.failedIds ∨
          (∃ xs ys, rest = xs ++ idA :: ys ∧ idB ∈ ys) ∨ (i = idA ∧ idB ∈ rest) := by
        rcases hbefore with h | ⟨xs, ys, heq, hmem⟩
        · exact Or.inl h
        · cases xs with
          | nil =>
            simp only [List.nil_append, List.cons.injEq] at heq
            exact Or.inr (Or.inr ⟨heq.1, heq.2 ▸ hmem⟩)
          | cons x xs' =>
            simp only [List.cons_append, List.cons.injEq] at heq
            exact Or.inr (Or.inl ⟨xs', ys, heq.2, hmem⟩)
      have main : ∀ st' : ExecSt, LoopInv ops₀ st' →
          lookupOp st'.ops idB = some opB →
          (∀ x, x ∈ st.failedIds → x ∈ st'.failedIds) →
          idA ∈ (readyPass st' rest).2.failedIds →
          idB ∈ (readyPass st' rest).2.failedIds ∨
            idB ∈ (readyPass st' rest).2.completedIds := by
        intro st' hInv' hlook' hmono hfin'
        rcases hkey with hk | hk | ⟨hiA, _⟩
        · exact ih st' hInv' hnd.2 opB hlook' hdepB (Or.inl (hmono idA hk)) hBrest hfin'
        · exact ih st' hInv' hnd.2 opB hlook' hdepB (Or.inr hk) hBrest hfin'
        · have hA' : idA ∈ st'.failedIds := by
            rcases readyPass_failed_sub rest st' idA hfin' with h | h
            · exact h
            · exact absurd h (hiA ▸ hnd.1)
          exact ih st' hInv' hnd.2 opB hlook' hdepB (Or.inl hA') hBrest hfin'
      cases hl : lookupOp st.ops i with
      | none =>
        rw [readyPass_cons_none rest hl] at hfinA ⊢
        exact main st hInv hlookB (fun _ h => h) hfinA
      | some op =>
        by_cases h1 : i ∈ st.completedIds ∨ i ∈ st.failedIds
        · rw [readyPass_cons_done rest hl h1] at hfinA ⊢
          exact main st hInv hlookB (fun _ h => h) hfinA
        · cases hd : op.dependsOn with
          | none =>
            rw [readyPass_cons_nodep rest hl h1 hd] at hfinA ⊢
            exact main st hInv hlookB (fun _ h => h) hfinA
          | some d =>
            by_cases hdc : d ∈ st.completedIds
            · rw [readyPass_cons_depDone rest hl h1 hd hdc] at hfinA ⊢
              exact main st hInv hlookB (fun _ h => h) hfinA
            · by_cases hdf : d ∈ st.failedIds
              · rw [readyPass_cons_depFailed rest hl h1 hd hdc hdf] at hfinA ⊢
                have h1' : i ∉ st.completedIds ∧ i ∉ st.failedIds := by
                  push_neg at h1
                  exact h1
                refine main (cascadeFail st i op)
                  (loopInv_cascadeFail hInv h1'.1 h1'.2) ?_ ?_ hfinA
                · rw [show (cascadeFail st i op).ops = updateOp st.ops i failSkipUpd
                      from rfl,
                    lookupOp_updateOp_ne failSkipUpd_id (fun h => hiB h.symm)]
                  exact hlookB
                · intro x hx
                  exact List.mem_cons_of_mem i hx
              · rw [readyPass_cons_depPending rest hl h1 hd hdc hdf] at hfinA ⊢
                exact main st hInv hlookB (fun _ h => h) hfinA

/-! ### Status writes of a dependency-free run, and the store invariant -/

theorem updateFirst_map_id {ops : List Operation} {i : String}
    {f : Operation → Operation} (hf : ∀ o, (f o).id = o.id) :
    (updateFirst ops i f).map (fun o => o.id) = ops.map (fun o => o.id) := by
  induction ops with
  | nil => rfl
  | cons o rest ih =>
    by_cases h : o.id = i <;> simp [updateFirst, h, hf, ih]

theorem mem_updateFirst {ops : List Operation} {i : String}
    {f : Operation → Operation} {op : Operation} (h : op ∈ updateFirst ops i f) :
    op ∈ ops ∨ ∃ o ∈ ops, op = f o := by
  induction ops with
  | nil => cases h
  | cons x rest ih =>
    by_cases hx : x.id = i
    · rw [updateFirst, if_pos hx] at h
      rcases List.mem_cons.mp h with rfl | h
      · exact Or.inr ⟨x, List.mem_cons_self x rest, rfl⟩
      · exact Or.inl (List.mem_cons_of_mem x h)
    · rw [updateFirst, if_neg hx] at h
      rcases List.mem_cons.mp h with rfl | h
      · exact Or.inl (List.mem_cons_self _ rest)
      · rcases ih h with h' | ⟨o, ho, rfl⟩
        · exact Or.inl (List.mem_cons_of_mem x h')
        · exact Or.inr ⟨o, List.mem_cons_of_mem x ho, rfl⟩

theorem eraseIdxSublist {α : Type} (l : List α) (n : Nat) :
    (l.eraseIdx n).Sublist l := by
  induction l generalizing n with
  | nil => simp [List.eraseIdx]
  | cons x rest ih =>
    cases n with
    | zero =>
      rw [List.eraseIdx]
      exact (List.Sublist.refl rest).cons x
    | succ n' =>
      rw [List.eraseIdx]
      exact (ih n').cons₂ x

theorem stOps_deps_none {ops₀ : List Operation} {st : ExecSt}
    (hInv : LoopInv ops₀ st) (hnd : (ops₀.map (fun o => o.id)).Nodup)
    (hdeps : ∀ op ∈ ops₀, op.dependsOn = none) :
    ∀ op ∈ st.ops, op.dependsOn = none := by
  intro op hmem
  have hndst : (st.ops.map (fun o => o.id)).Nodup := by
    rw [hInv.ids]
    exact hnd
  have hlk : lookupOp st.ops op.id = some op := lookupOp_eq_of_nodup hndst hmem
  have hd := hInv.deps op.id
  rw [hlk] at hd
  cases hl₀ : lookupOp ops₀ op.id with
  | none =>
    rw [hl₀] at hd
    simp at hd
  | some op₀ =>
    rw [hl₀] at hd
    simp only [Option.map_some'] at hd
    rw [Option.some.inj hd]
    exact hdeps op₀ (lookupOp_mem hl₀)

theorem readyPass_no_deps_state (l : List String) : ∀ st : ExecSt,
    (∀ op ∈ st.ops, op.dependsOn = none) → (readyPass st l).2 = st := by
  induction l with
  | nil => intro st _; rfl
  | cons i rest ih =>
    intro st hdeps
    cases hl : lookupOp st.ops i with
    | none =>
      rw [readyPass_cons_none rest hl]
      exact ih st hdeps
    | some op =>
      have hdep : op.dependsOn = none := hdeps op (lookupOp_mem hl)
      by_cases h1 : i ∈ st.completedIds ∨ i ∈ st.failedIds
      · rw [readyPass_cons_done rest hl h1]
        exact ih st hdeps
      · rw [readyPass_cons_nodep rest hl h1 hdep]
        exact ih st hdeps

theorem foldProcess_changes {ops₀ : List Operation} (exec : ExecFn)
    (otp : Option String) (hnd : (ops₀.map (fun o => o.id)).Nodup)
    (ready : List String) : ∀ st : ExecSt,
    LoopInv ops₀ st →
    (∀ c ∈ st.changes, edgeOk c.2.1 c.2.2 = true) →
    ready.Nodup →
    (∀ i ∈ ready, i ∉ st.completedIds ∧ i ∉ st.failedIds ∧ i ∈ approvedIdsOf ops₀ ∧
      ∃ op, lookupOp st.ops i = some op ∧
        (op.dependsOn = none ∨ ∃ d, op.dependsOn = some d ∧ d ∈ st.completedIds)) →
    ∀ c ∈ (List.foldl (processOne exec otp) st ready).changes,
      edgeOk c.2.1 c.2.2 = true := by
  induction ready with
  | nil => intro st _ hleg _ _; exact hleg
  | cons i rest ih =>
    intro st hInv hleg hnd' hprep
    rw [List.nodup_cons] at hnd'
    obtain ⟨hic, hif, hiap, op, hlo, hdepOk⟩ := hprep i (List.mem_cons_self i rest)
    have hlo₀ : lookupOp ops₀ i = some op := by
      rw [← hInv.untouched i hic hif]
      exact hlo
    have hst : op.status = OpStatus.approved :=
      lookupOp_status_approved hnd hiap hlo₀
    have hdep₀ : ∀ op₀, lookupOp ops₀ i = some op₀ →
        op₀.dependsOn = none ∨ ∃ d, op₀.dependsOn = some d ∧ d ∈ st.completedIds := by
      intro op₀ hl₀
      rw [hlo₀] at hl₀
      cases hl₀
      exact hdepOk
    rw [List.foldl_cons]
    apply ih (processOne exec otp st i)
      (loopInv_processOne hInv hic hif hdep₀ exec otp) ?_ hnd'.2 ?_
    · -- legality of the two status writes performed by this dispatch
      intro c hc
      by_cases hr : (exec op.opType op.params otp).exitCode = 0
      · have hchg : (processOne exec otp st i).changes = st.changes ++
            [(i, op.status, OpStatus.running), (i, OpStatus.running, OpStatus.completed)] := by
          simp [processOne, hlo, hr]
        rw [hchg] at hc
        rcases List.mem_append.mp hc with hc | hc
        · exact hleg c hc
        · rcases List.mem_cons.mp hc with rfl | hc
          · rw [hst]
            rfl
          · rcases List.mem_cons.mp hc with rfl | hc
            · rfl
            · cases hc
      · have hchg : (processOne exec otp st i).changes = st.changes ++
            [(i, op.status, OpStatus.running), (i, OpStatus.running, OpStatus.failed)] := by
          simp [processOne, hlo, hr]
        rw [hchg] at hc
        rcases List.mem_append.mp hc with hc | hc
        · exact hleg c hc
        · rcases List.mem_cons.mp hc with rfl | hc
          · rw [hst]
            rfl
          · rcases List.mem_cons.mp hc with rfl | hc
            · rfl
            · cases hc
    · intro i' hi'
      obtain ⟨hic', hif', hiap', op', hlo', hdepOk'⟩ :=
        hprep i' (List.mem_cons_of_mem i hi')
      have hne : i' ≠ i := fun h => hnd'.1 (h ▸ hi')
      refine ⟨?_, ?_, hiap', op', ?_, ?_⟩
      · intro hmem
        rcases processOne_comp_sub exec otp st i i' hmem with h | h
        · exact hne h
        · exact hic' h
      · intro hmem
        rcases processOne_fail_sub exec otp st i i' hmem with h | h
        · exact hne h
        · exact hif' h
      · rw [processOne_lookup_ne exec otp st i hne]
        exact hlo'
      · rcases hdepOk' with h | ⟨d, hd, hdc⟩
        · exact Or.inl h
        · exact Or.inr ⟨d, hd, (processOne_sets_mono exec otp st i d).1 hdc⟩

theorem execLoop_changes {ops₀ : List Operation} (exec : ExecFn)
    (otp : Option String) (hnd : (ops₀.map (fun o => o.id)).Nodup)
    (hdeps : ∀ op ∈ ops₀, op.dependsOn = none) :
    ∀ fuel : Nat, ∀ st fin : ExecSt, LoopInv ops₀ st →
    (∀ c ∈ st.changes, edgeOk c.2.1 c.2.2 = true) →
    execLoop exec otp (approvedIdsOf ops₀) fuel st = some fin →
    ∀ c ∈ fin.changes, edgeOk c.2.1 c.2.2 = true := by
  intro fuel
  induction fuel with
  | zero => intro st fin _ _ h; cases h
  | succ fuel ih =>
    intro st fin hInv hleg h
    have hstate : (readyPass st (approvedIdsOf ops₀)).2 = st :=
      readyPass_no_deps_state _ st (stOps_deps_none hInv hnd hdeps)
    simp only [execLoop] at h
    by_cases hready : (readyPass st (approvedIdsOf ops₀)).1.isEmpty = true
    · rw [if_pos hready] at h
      cases h
      rw [hstate]
      exact hleg
    · rw [if_neg hready] at h
      by_cases hstall :
          ((readyPass st (approvedIdsOf ops₀)).2.otpRequired && otpMissing otp) = true
      · rw [if_pos hstall] at h
        cases h
        rw [hstate]
        exact hleg
      · rw [if_neg hstall] at h
        rw [hstate] at h
        have hnr : ((readyPass st (approvedIdsOf ops₀)).1).Nodup :=
          (readyPass_ready_sublist (approvedIdsOf ops₀) st).nodup
            (approvedIdsOf_nodup hnd)
        have hprep : ∀ i ∈ (readyPass st (approvedIdsOf ops₀)).1,
            i ∉ st.completedIds ∧ i ∉ st.failedIds ∧ i ∈ approvedIdsOf ops₀ ∧
            ∃ op, lookupOp st.ops i = some op ∧
              (op.dependsOn = none ∨
                ∃ d, op.dependsOn = some d ∧ d ∈ st.completedIds) := by
          intro i hi
          obtain ⟨hil, hic, hif, op, hlo, hdepOk⟩ :=
            readyPass_ready_spec (approvedIdsOf ops₀) st i hi
          exact ⟨hic, hif, hil, op, hlo, hdepOk⟩
        refine ih _ fin ?_ ?_ h
        · exact loopInv_foldProcess exec otp _ st hInv hnr
            (fun i hi => ⟨(hprep i hi).1, (hprep i hi).2.1, (hprep i hi).2.2.2⟩)
        · exact foldProcess_changes exec otp hnd _ st hInv hleg hnr hprep

theorem executeRun_changes_legal (exec : ExecFn) (otp : Option String)
    (ops₀ : List Operation) (hnd : (ops₀.map (fun o => o.id)).Nodup)
    (hdeps : ∀ op ∈ ops₀, op.dependsOn = none) :
    ∀ c ∈ (executeRun exec otp ops₀).changes, edgeOk c.2.1 c.2.2 = true := by
  obtain ⟨fin, hfin⟩ := Option.isSome_iff_exists.mp (executeRunOpt_isSome exec otp ops₀)
  have hrun : executeRun exec otp ops₀ = fin := by
    rw [executeRun, hfin]
    rfl
  rw [hrun]
  exact execLoop_changes exec otp hnd hdeps _ (initExecSt ops₀) fin (loopInv_init ops₀)
    (by simp [initExecSt]) hfin

/-! ### Claim theorems: the wave scheduler (C1, C4, C5) -/

/-- C1: for every `/execute` call without an OTP, if any recorded result
carries `requiresOtp`, then the returned `otpRequired` flag is true and
every approved operation that is in neither the completed nor the failed
set when the scheduler stops is exactly its pre-call record — in
particular still `approved`, not `running` and not `failed`. -/
theorem c1_otp_stall_preserves_approved (exec : ExecFn) (ops₀ : List Operation)
    (hnd : (ops₀.map (fun o => o.id)).Nodup)
    (hres : ∃ p ∈ (executeRun exec none ops₀).results, p.2.requiresOtp = true) :
    (executeRun exec none ops₀).otpRequired = true ∧
    ∀ j op₀, lookupOp ops₀ j = some op₀ → op₀.status = OpStatus.approved →
      j ∉ (executeRun exec none ops₀).completedIds →
      j ∉ (executeRun exec none ops₀).failedIds →
      ∃ op, lookupOp (executeRun exec none ops₀).ops j = some op ∧
        op.status = OpStatus.approved ∧ op.status ≠ OpStatus.running ∧
        op.status ≠ OpStatus.failed := by
  obtain ⟨hInv, _⟩ := executeRun_lastPass exec none ops₀ (approvedIdsOf_nodup hnd)
  constructor
  · obtain ⟨p, hp, hr⟩ := hres
    exact hInv.otpRes p hp hr
  · intro j op₀ hl₀ hst hc hf
    refine ⟨op₀, ?_, hst, ?_, ?_⟩
    · rw [hInv.untouched j hc hf]
      exact hl₀
    · rw [hst]
      simp
    · rw [hst]
      simp

theorem c1_witness :
    (∃ p ∈ (executeRun wExecOtp none [wOpA, wOpY]).results, p.2.requiresOtp = true) ∧
    ((executeRun wExecOtp none [wOpA, wOpY]).otpRequired = true ∧
     ∀ j op₀, lookupOp [wOpA, wOpY] j = some op₀ → op₀.status = OpStatus.approved →
       j ∉ (executeRun wExecOtp none [wOpA, wOpY]).completedIds →
       j ∉ (executeRun wExecOtp none [wOpA, wOpY]).failedIds →
       ∃ op, lookupOp (executeRun wExecOtp none [wOpA, wOpY]).ops j = some op ∧
         op.status = OpStatus.approved ∧ op.status ≠ OpStatus.running ∧
         op.status ≠ OpStatus.failed) :=
  ⟨by decide,
   c1_otp_stall_preserves_approved wExecOtp [wOpA, wOpY] (by decide) (by decide)⟩

/-- C4: for every operation collection (unknown dependency ids,
non-approved operations and dependency cycles included), every executor
behavior and every OTP choice, the wave loop of `/execute` reaches one of
its two break conditions within the supplied fuel, so the call always
returns. -/
theorem c4_execute_terminates (exec : ExecFn) (otp : Option String)
    (ops : List Operation) : (executeRunOpt exec otp ops).isSome = true :=
  executeRunOpt_isSome exec otp ops

/-- C5: for every operation dispatched to the Command Executor by
`/execute`, its terminal status is `completed` exactly when its recorded
result has exit code zero (whatever the `requiresOtp` and `authFailure`
flags say), and any recorded result carrying `requiresOtp` forces the
returned `otpRequired` flag. -/
theorem c5_completed_iff_exit_zero (exec : ExecFn) (otp : Option String)
    (ops₀ : List Operation) (hnd : (ops₀.map (fun o => o.id)).Nodup) :
    (∀ j op, lookupOp (executeRun exec otp ops₀).ops j = some op →
      j ∈ (executeRun exec otp ops₀).executed →
      ∃ r, op.result = some r ∧ (op.status = OpStatus.completed ↔ r.exitCode = 0)) ∧
    (∀ p ∈ (executeRun exec otp ops₀).results, p.2.requiresOtp = true →
      (executeRun exec otp ops₀).otpRequired = true) := by
  obtain ⟨hInv, _⟩ := executeRun_lastPass exec otp ops₀ (approvedIdsOf_nodup hnd)
  constructor
  · intro j op hl hj
    rcases hInv.execSettled j hj with hc | hf
    · obtain ⟨hstat, r, hres, hexit⟩ := hInv.stComp j op hl hc
      exact ⟨r, hres, ⟨fun _ => hexit, fun _ => hstat⟩⟩
    · have hstat := hInv.stFail j op hl hf
      obtain ⟨r, hres, hexit⟩ := hInv.failDispatch j op hl hf hj
      refine ⟨r, hres, ?_, ?_⟩
      · intro h
        rw [hstat] at h
        exact absurd h (by decide)
      · intro h
        exact absurd h hexit
  · intro p hp hr
    exact hInv.otpRes p hp hr

theorem c5_witness :
    (∀ j op, lookupOp (executeRun wExecFail none [wOpA]).ops j = some op →
      j ∈ (executeRun wExecFail none [wOpA]).executed →
      ∃ r, op.result = some r ∧ (op.status = OpStatus.completed ↔ r.exitCode = 0)) ∧
    (∀ p ∈ (executeRun wExecFail none [wOpA]).results, p.2.requiresOtp = true →
      (executeRun wExecFail none [wOpA]).otpRequired = true) :=
  c5_completed_iff_exit_zero wExecFail none [wOpA] (by decide)

/-! ### Claim theorems: dependency-failure cascade (C2) -/

/-- C2 counterexample: with the collection `[A failed, B approved
dependsOn A]`, the premises of the claim hold after the `/execute` call
(B was approved with `dependsOn = A.id`, and the terminal status of A is
`failed`), yet B ends the call still `approved` — not `failed` — because
a pre-failed dependency id is never placed in the failed set, so the
claimed cascade does not happen. -/
theorem c2_counterexample :
    wOpB.status = OpStatus.approved ∧
    wOpB.dependsOn = some wOpAFailed.id ∧
    (lookupOp (executeRun wExecOk none [wOpAFailed, wOpB]).ops "a").map
      (fun o => o.status) = some OpStatus.failed ∧
    (lookupOp (executeRun wExecOk none [wOpAFailed, wOpB]).ops "b").map
      (fun o => o.status) = some OpStatus.approved ∧
    ¬((lookupOp (executeRun wExecOk none [wOpAFailed, wOpB]).ops "b").map
      (fun o => o.status) = some OpStatus.failed) := by
  decide

/-- C2 as amended: if A and B are both approved at the start of the
`/execute` call, A precedes B in the collection (as the store invariant on
`dependsOn` guarantees), `B.dependsOn = A.id`, and A ends the call
`failed`, then B ends the call `failed` with the synthetic skip result and
the Command Executor is never invoked for B; iterating the statement gives
the transitive cascade. -/
theorem c2_amended_cascade (exec : ExecFn) (otp : Option String)
    (ops₀ : List Operation) (hnd : (ops₀.map (fun o => o.id)).Nodup)
    {i j : Nat} {opA opB : Operation} (hij : i < j)
    (hA : ops₀.get? i = some opA) (hB : ops₀.get? j = some opB)
    (hAst : opA.status = OpStatus.approved) (hBst : opB.status = OpStatus.approved)
    (hdep : opB.dependsOn = some opA.id)
    (hAfail : ∃ opA', lookupOp (executeRun exec otp ops₀).ops opA.id = some opA' ∧
      opA'.status = OpStatus.failed) :
    ∃ opB', lookupOp (executeRun exec otp ops₀).ops opB.id = some opB' ∧
      opB'.status = OpStatus.failed ∧ opB'.result = some syntheticSkip ∧
      opB.id ∉ (executeRun exec otp ops₀).executed := by
  obtain ⟨hInvFin, stp, hInvP, hPass⟩ :=
    executeRun_lastPass exec otp ops₀ (approvedIdsOf_nodup hnd)
  have hmemA : opA ∈ ops₀ := List.get?_mem hA
  have hmemB : opB ∈ ops₀ := List.get?_mem hB
  have hlA₀ : lookupOp ops₀ opA.id = some opA := lookupOp_eq_of_nodup hnd hmemA
  have hlB₀ : lookupOp ops₀ opB.id = some opB := lookupOp_eq_of_nodup hnd hmemB
  obtain ⟨opA', hlA', hstA'⟩ := hAfail
  have hAfailSet : opA.id ∈ (executeRun exec otp ops₀).failedIds := by
    by_cases hc : opA.id ∈ (executeRun exec otp ops₀).completedIds
    · obtain ⟨hstat, _⟩ := hInvFin.stComp opA.id opA' hlA' hc
      rw [hstat] at hstA'
      exact absurd hstA' (by decide)
    · by_cases hf : opA.id ∈ (executeRun exec otp ops₀).failedIds
      · exact hf
      · exfalso
        rw [hInvFin.untouched opA.id hc hf, hlA₀] at hlA'
        cases hlA'
        rw [hAst] at hstA'
        exact absurd hstA' (by decide)
  obtain ⟨u, v, hsplit, hBv⟩ := get?_lt_split hij hA hB
  have hlids : approvedIdsOf ops₀ = approvedIdsOf u ++ opA.id :: approvedIdsOf v := by
    rw [hsplit, approvedIdsOf_append, approvedIdsOf_cons_approved v hAst]
  have hBys : opB.id ∈ approvedIdsOf v := mem_approvedIdsOf.mpr ⟨opB, hBv, rfl, hBst⟩
  have hBl : opB.id ∈ approvedIdsOf ops₀ := by
    rw [hlids]
    exact List.mem_append_right _ (List.mem_cons_of_mem _ hBys)
  obtain ⟨opBp, hlookBp⟩ := lookupOp_isSome_of_mem_id
    (show opB.id ∈ stp.ops.map (fun o => o.id) by
      rw [hInvP.ids]
      exact List.mem_map.mpr ⟨opB, hmemB, rfl⟩)
  have hdepBp : opBp.dependsOn = some opA.id := by
    have hd := hInvP.deps opB.id
    rw [hlookBp, hlB₀] at hd
    simp only [Option.map_some'] at hd
    rw [Option.some.inj hd]
    exact hdep
  have hfinA' : opA.id ∈ (readyPass stp (approvedIdsOf ops₀)).2.failedIds := by
    rw [hPass]
    exact hAfailSet
  have hclose := readyPass_cascade_closure (approvedIdsOf ops₀) stp hInvP
    (approvedIdsOf_nodup hnd) opBp hlookBp hdepBp
    (Or.inr ⟨approvedIdsOf u, approvedIdsOf v, hlids, hBys⟩) hBl hfinA'
  rw [hPass] at hclose
  have hexecBnot : opB.id ∉ (executeRun exec otp ops₀).executed := by
    intro hexecB
    rcases hInvFin.execDep opB.id hexecB opB hlB₀ with hnone | ⟨d, hd, hdc⟩
    · rw [hdep] at hnone
      cases hnone
    · rw [hdep] at hd
      cases hd
      exact (hInvFin.disj opA.id hdc) hAfailSet
  have hBfail : opB.id ∈ (executeRun exec otp ops₀).failedIds := by
    rcases hclose with h | h
    · exact h
    · exact absurd (hInvFin.compDispatch opB.id h) hexecBnot
  obtain ⟨opB', hlB'⟩ := lookupOp_isSome_of_mem_id
    (show opB.id ∈ (executeRun exec otp ops₀).ops.map (fun o => o.id) by
      rw [hInvFin.ids]
      exact List.mem_map.mpr ⟨opB, hmemB, rfl⟩)
  exact ⟨opB', hlB', hInvFin.stFail opB.id opB' hlB' hBfail,
    hInvFin.failCascade opB.id opB' hlB' hBfail hexecBnot, hexecBnot⟩

theorem c2_witness :
    ∃ opB', lookupOp (executeRun wExecFail none [wOpA, wOpB]).ops wOpB.id = some opB' ∧
      opB'.status = OpStatus.failed ∧ opB'.result = some syntheticSkip ∧
      wOpB.id ∉ (executeRun wExecFail none [wOpA, wOpB]).executed :=
  c2_amended_cascade wExecFail none [wOpA, wOpB] (by decide)
    (Nat.zero_lt_one) rfl rfl rfl rfl rfl
    ⟨wOpAFailedBoom, by decide, rfl⟩

/-! ### Claim theorems: error classification (C6) -/

/-- C6 counterexample: on the stderr text consisting of one npm warning
line, an empty line and one diagnostic line, neither pattern list matches,
and the surfaced diagnostic differs from the claimed plain line removal —
the code additionally trims the result. -/
theorem c6_counterexample :
    detectOtpRequired c6Input = false ∧ detectAuthFailure c6Input = false ∧
    classifyStderr c6Input ≠ removeWarnLinesClaim c6Input := by
  decide

/-- C6 as amended: classification is by case-insensitive substring match
over the two ordered pattern lists, OTP first: an OTP match yields the
fixed OTP sentence even if an auth pattern also matches; otherwise an auth
match yields the fixed re-login sentence; otherwise the surfaced text is
the raw stderr with lines starting with the npm warning prefix removed and
the result trimmed of surrounding whitespace. -/
theorem c6_classification (s : String) :
    ((∃ p ∈ otpPatterns, strIncludes (lowerStr s) (lowerStr p) = true) →
      classifyStderr s = otpSentence) ∧
    ((¬ ∃ p ∈ otpPatterns, strIncludes (lowerStr s) (lowerStr p) = true) →
      (∃ p ∈ authPatterns, strIncludes (lowerStr s) (lowerStr p) = true) →
      classifyStderr s = authSentence) ∧
    ((¬ ∃ p ∈ otpPatterns, strIncludes (lowerStr s) (lowerStr p) = true) →
      (¬ ∃ p ∈ authPatterns, strIncludes (lowerStr s) (lowerStr p) = true) →
      classifyStderr s = strTrim (removeWarnLinesClaim s)) := by
  have hOtpTrue : (∃ p ∈ otpPatterns, strIncludes (lowerStr s) (lowerStr p) = true) →
      detectOtpRequired s = true := by
    intro h
    rw [detectOtpRequired, List.any_eq_true]
    exact h
  have hOtpFalse : (¬ ∃ p ∈ otpPatterns, strIncludes (lowerStr s) (lowerStr p) = true) →
      detectOtpRequired s = false := by
    intro h
    cases hD : detectOtpRequired s
    · rfl
    · rw [detectOtpRequired, List.any_eq_true] at hD
      exact absurd hD h
  have hAuthTrue : (∃ p ∈ authPatterns, strIncludes (lowerStr s) (lowerStr p) = true) →
      detectAuthFailure s = true := by
    intro h
    rw [detectAuthFailure, List.any_eq_true]
    exact h
  have hAuthFalse : (¬ ∃ p ∈ authPatterns, strIncludes (lowerStr s) (lowerStr p) = true) →
      detectAuthFailure s = false := by
    intro h
    cases hD : detectAuthFailure s
    · rfl
    · rw [detectAuthFailure, List.any_eq_true] at hD
      exact absurd hD h
  refine ⟨?_, ?_, ?_⟩
  · intro h
    simp [classifyStderr, hOtpTrue h]
  · intro h1 h2
    simp [classifyStderr, hOtpFalse h1, hAuthTrue h2]
  · intro h1 h2
    simp only [classifyStderr, hOtpFalse h1, hAuthFalse h2, Bool.false_eq_true,
      if_false]
    rfl

theorem c6_witness : classifyStderr c6Witness = otpSentence :=
  (c6_classification c6Witness).1 (by decide)

/-! ### Claim theorems: authentication gate (C7) -/

/-- C7: every protected endpoint (all but the handshake) called with a
missing or non-matching bearer credential throws the 401 authorization
error and leaves the connector state — session and operation collection —
exactly as it was. -/
theorem c7_auth_gate (st : ConnState) (auth : Option String) (req : Request)
    (hp : isProtected req = true)
    (hv : validateToken st.session.token auth = false) :
    handle st auth req = Except.error unauthorizedErr ∧
    stepState st auth req = st := by
  have hcond : ¬ (validateToken st.session.token auth = true) := by
    rw [hv]
    exact Bool.false_ne_true
  have hh : handle st auth req = Except.error unauthorizedErr := by
    cases req with
    | connect a b c => simp [isProtected] at hp
    | getState => simp [handle, hcond]
    | createOp a b => simp [handle, hcond]
    | createBatch a b => simp [handle, hcond]
    | approve a => simp [handle, hcond]
    | approveAll => simp [handle, hcond]
    | retryOp a => simp [handle, hcond]
    | execute a b => simp [handle, hcond]
    | deleteOp a => simp [handle, hcond]
    | deleteAll => simp [handle, hcond]
    | orgUsers a b c => simp [handle, hcond]
    | orgTeams a b c => simp [handle, hcond]
    | teamUsers a b c => simp [handle, hcond]
    | pkgCollaborators a b c => simp [handle, hcond]
  exact ⟨hh, by simp [stepState, hh]⟩

theorem c7_witness :
    handle (initConnState wTok) none Request.getState = Except.error unauthorizedErr ∧
    stepState (initConnState wTok) none Request.getState = initConnState wTok :=
  c7_auth_gate (initConnState wTok) none Request.getState rfl rfl

/-! ### Claim theorems: retry semantics (C8) -/

/-- C8: an authorized `/retry`: an unknown id fails with the 404 error and
no state change; an id whose operation is in any non-`failed` status fails
with the 400 error and no state change; a `failed` operation has exactly
its status reset to `approved` and its result cleared (the first record
with that id is replaced by its reset copy, everything else untouched),
and the reset record is returned. -/
theorem c8_retry_semantics (st : ConnState) (auth : Option String) (i : String)
    (hv : validateToken st.session.token auth = true) :
    (lookupOp st.operations i = none →
      handle st auth (Request.retryOp i) = Except.error notFoundErr ∧
      stepState st auth (Request.retryOp i) = st) ∧
    (∀ op, lookupOp st.operations i = some op → op.status ≠ OpStatus.failed →
      handle st auth (Request.retryOp i) = Except.error notFailedErr ∧
      stepState st auth (Request.retryOp i) = st) ∧
    (∀ op, lookupOp st.operations i = some op → op.status = OpStatus.failed →
      handle st auth (Request.retryOp i) = Except.ok
        ({ st with operations := updateFirst st.operations i retryReset },
         RespData.opData (retryReset op), [(i, op.status, OpStatus.approved)])) := by
  refine ⟨?_, ?_, ?_⟩
  · intro hl
    have hh : handle st auth (Request.retryOp i) = Except.error notFoundErr := by
      simp [handle, hv, hl]
    exact ⟨hh, by simp [stepState, hh]⟩
  · intro op hl hst
    have hh : handle st auth (Request.retryOp i) = Except.error notFailedErr := by
      simp [handle, hv, hl, hst]
    exact ⟨hh, by simp [stepState, hh]⟩
  · intro op hl hst
    simp [handle, hv, hl, hst]

theorem c8_witness :
    validateToken wStFailed.session.token wAuth = true ∧
    lookupOp wStFailed.operations wIdA = some wOpAFailed ∧
    handle wStFailed wAuth (Request.retryOp wIdA) = Except.ok
      ({ wStFailed with operations := updateFirst wStFailed.operations wIdA retryReset },
       RespData.opData (retryReset wOpAFailed),
       [(wIdA, wOpAFailed.status, OpStatus.approved)]) :=
  ⟨by decide, by decide,
   (c8_retry_semantics wStFailed wAuth wIdA (by decide)).2.2 wOpAFailed (by decide) rfl⟩

/-! ### Claim theorems: reachable status transitions (C3) -/

theorem storeInv_updateFirst {st : ConnState} (hInv : StoreInv st) (i : String)
    (f : Operation → Operation) (hfid : ∀ o, (f o).id = o.id)
    (hfdep : ∀ o, (f o).dependsOn = o.dependsOn)
    (hfst : ∀ o, (f o).status ≠ OpStatus.running) :
    StoreInv { st with operations := updateFirst st.operations i f } := by
  obtain ⟨hnd, hprop⟩ := hInv
  refine ⟨?_, ?_⟩
  · show ((updateFirst st.operations i f).map (fun o => o.id)).Nodup
    rw [updateFirst_map_id hfid]
    exact hnd
  · intro op hmem
    rcases mem_updateFirst hmem with h | ⟨o, ho, rfl⟩
    · exact hprop op h
    · exact ⟨by rw [hfdep]; exact (hprop o ho).1, hfst o⟩

theorem storeInv_step (st : ConnState) (auth : Option String) (req : Request)
    (hInv : StoreInv st) (hf : freshOk st req) : StoreInv (stepState st auth req) := by
  cases req with
  | connect a b c =>
    by_cases hc : a = st.session.token
    · have hstep : stepState st auth (Request.connect a b c) =
          { st with session := { st.session with connectedAt := c, npmUser := b } } := by
        simp [stepState, handle, hc]
      rw [hstep]
      exact hInv
    · have hstep : stepState st auth (Request.connect a b c) = st := by
        simp [stepState, handle, hc]
      rw [hstep]
      exact hInv
  | getState =>
    by_cases hval : validateToken st.session.token auth = true <;>
      simpa [stepState, handle, hval] using hInv
  | createOp spec now =>
    by_cases hval : validateToken st.session.token auth = true
    · have hstep : stepState st auth (Request.createOp spec now) =
          { st with operations := st.operations ++ [newOperation spec now] } := by
        simp [stepState, handle, hval]
      rw [hstep]
      obtain ⟨hnd, hprop⟩ := hInv
      refine ⟨?_, ?_⟩
      · show ((st.operations ++ [newOperation spec now]).map (fun o => o.id)).Nodup
        rw [List.map_append]
        rw [List.nodup_append]
        refine ⟨hnd, List.nodup_singleton _, ?_⟩
        intro x hx
        obtain ⟨o, ho, rfl⟩ := List.mem_map.mp hx
        simp only [List.map_cons, List.map_nil, List.mem_singleton, newOperation]
        exact hf o ho
      · intro op hmem
        rcases List.mem_append.mp hmem with h | h
        · exact hprop op h
        · rw [List.mem_singleton] at h
          subst h
          exact ⟨rfl, by simp [newOperation]⟩
    · simpa [stepState, handle, hval] using hInv
  | createBatch specs now =>
    by_cases hval : validateToken st.session.token auth = true
    · have hstep : stepState st auth (Request.createBatch specs now) =
          { st with operations :=
              st.operations ++ specs.map (fun s => newOperation s now) } := by
        simp [stepState, handle, hval]
      rw [hstep]
      obtain ⟨hnd, hprop⟩ := hInv
      obtain ⟨hfnd, hffresh⟩ := hf
      refine ⟨?_, ?_⟩
      · show ((st.operations ++ specs.map (fun s => newOperation s now)).map
            (fun o => o.id)).Nodup
        rw [List.map_append]
        rw [List.nodup_append]
        refine ⟨hnd, ?_, ?_⟩
        · rw [List.map_map]
          have : ((fun o : Operation => o.id) ∘ fun s => newOperation s now)
              = fun s : NewOpSpec => s.id := rfl
          rw [this]
          exact hfnd
        · intro x hx
          obtain ⟨o, ho, rfl⟩ := List.mem_map.mp hx
          rw [List.map_map]
          intro hmem
          obtain ⟨sp, hsp, hspid⟩ := List.mem_map.mp hmem
          exact hffresh sp hsp o ho hspid.symm
      · intro op hmem
        rcases List.mem_append.mp hmem with h | h
        · exact hprop op h
        · obtain ⟨sp, _, rfl⟩ := List.mem_map.mp h
          exact ⟨rfl, by simp [newOperation]⟩
    · simpa [stepState, handle, hval] using hInv
  | approve i =>
    by_cases hval : validateToken st.session.token auth = true
    · cases hlk : lookupOp st.operations i with
      | none => simpa [stepState, handle, hval, hlk] using hInv
      | some op =>
        by_cases hst : op.status = OpStatus.pending
        · have hstep : stepState st auth (Request.approve i) = { st with operations := updateFirst st.operations i (fun o => { o with status := OpStatus.approved }) } := by
            simp [stepState, handle, hval, hlk, hst]
          rw [hstep]
          exact storeInv_updateFirst hInv i _ (fun _ => rfl) (fun _ => rfl)
            (fun o => by simp)
        · simpa [stepState, handle, hval, hlk, hst] using hInv
    · simpa [stepState, handle, hval] using hInv
  | approveAll =>
    by_cases hval : validateToken st.session.token auth = true
    · have hstep : stepState st auth Request.approveAll = { st with operations := st.operations.map (fun o => if o.status = OpStatus.pending then { o with status := OpStatus.approved } else o) } := by
        simp [stepState, handle, hval]
      rw [hstep]
      obtain ⟨hnd, hprop⟩ := hInv
      refine ⟨?_, ?_⟩
      · show ((st.operations.map (fun o => if o.status = OpStatus.pending then { o with status := OpStatus.approved } else o)).map (fun o => o.id)).Nodup
        rw [List.map_map]
        have : ((fun o : Operation => o.id) ∘ (fun o => if o.status = OpStatus.pending
            then { o with status := OpStatus.approved } else o))
            = fun o : Operation => o.id := by
          funext o
          by_cases h : o.status = OpStatus.pending <;> simp [h]
        rw [this]
        exact hnd
      · intro op hmem
        obtain ⟨o, ho, rfl⟩ := List.mem_map.mp hmem
        by_cases h : o.status = OpStatus.pending
        · simp only [h, if_true]
          exact ⟨(hprop o ho).1, by simp⟩
        · simp only [h, if_false]
          exact hprop o ho
    · simpa [stepState, handle, hval] using hInv
  | retryOp i =>
    by_cases hval : validateToken st.session.token auth = true
    · cases hlk : lookupOp st.operations i with
      | none => simpa [stepState, handle, hval, hlk] using hInv
      | some op =>
        by_cases hst : op.status = OpStatus.failed
        · have hstep : stepState st auth (Request.retryOp i) =
              { st with operations := updateFirst st.operations i retryReset } := by
            simp [stepState, handle, hval, hlk, hst]
          rw [hstep]
          exact storeInv_updateFirst hInv i retryReset (fun _ => rfl) (fun _ => rfl)
            (fun o => by simp [retryReset])
        · simpa [stepState, handle, hval, hlk, hst] using hInv
    · simpa [stepState, handle, hval] using hInv
  | execute otp exec =>
    by_cases hval : validateToken st.session.token auth = true
    · have hstep : stepState st auth (Request.execute otp exec) =
          { st with operations := (executeRun exec otp st.operations).ops } := by
        simp [stepState, handle, hval]
      rw [hstep]
      obtain ⟨hnd, hprop⟩ := hInv
      obtain ⟨hInvFin, _⟩ :=
        executeRun_lastPass exec otp st.operations (approvedIdsOf_nodup hnd)
      have hndfin : ((executeRun exec otp st.operations).ops.map
          (fun o => o.id)).Nodup := by
        rw [hInvFin.ids]
        exact hnd
      refine ⟨hndfin, ?_⟩
      intro op hmem
      have hlk : lookupOp (executeRun exec otp st.operations).ops op.id = some op :=
        lookupOp_eq_of_nodup hndfin hmem
      refine ⟨stOps_deps_none hInvFin hnd (fun o ho => (hprop o ho).1) op hmem, ?_⟩
      by_cases hc : op.id ∈ (executeRun exec otp st.operations).completedIds
      · rw [(hInvFin.stComp op.id op hlk hc).1]
        simp
      · by_cases hfl : op.id ∈ (executeRun exec otp st.operations).failedIds
        · rw [hInvFin.stFail op.id op hlk hfl]
          simp
        · have := hInvFin.untouched op.id hc hfl
          rw [this] at hlk
          exact (hprop op (lookupOp_mem hlk)).2
    · simpa [stepState, handle, hval] using hInv
  | deleteOp i =>
    by_cases hval : validateToken st.session.token auth = true
    · cases hidx : st.operations.findIdx? (fun o => decide (o.id = i)) with
      | none => simpa [stepState, handle, hval, hidx] using hInv
      | some n =>
        cases hget : st.operations[n]? with
        | none => simpa [stepState, handle, hval, hidx, hget] using hInv
        | some op =>
          by_cases hrun : op.status = OpStatus.running
          · simpa [stepState, handle, hval, hidx, hget, hrun] using hInv
          · have hstep : stepState st auth (Request.deleteOp i) =
                { st with operations := st.operations.eraseIdx n } := by
              simp [stepState, handle, hval, hidx, hget, hrun]
            rw [hstep]
            obtain ⟨hnd, hprop⟩ := hInv
            have hsub := eraseIdxSublist st.operations n
            exact ⟨(hsub.map (fun o => o.id)).nodup hnd,
              fun op hmem => hprop op (hsub.subset hmem)⟩
    · simpa [stepState, handle, hval] using hInv
  | deleteAll =>
    by_cases hval : validateToken st.session.token auth = true
    · have hstep : stepState st auth Request.deleteAll =
          { st with operations :=
              st.operations.filter (fun o => decide (o.status = OpStatus.running)) } := by
        simp [stepState, handle, hval]
      rw [hstep]
      obtain ⟨hnd, hprop⟩ := hInv
      have hsub := List.filter_sublist
        (p := fun o : Operation => decide (o.status = OpStatus.running)) st.operations
      exact ⟨(hsub.map (fun o => o.id)).nodup hnd,
        fun op hmem => hprop op (hsub.subset hmem)⟩
    · simpa [stepState, handle, hval] using hInv
  | orgUsers a b c =>
    by_cases hval : validateToken st.session.token auth = true
    · by_cases ho : a.isEmpty = true <;> simpa [stepState, handle, hval, ho] using hInv
    · simpa [stepState, handle, hval] using hInv
  | orgTeams a b c =>
    by_cases hval : validateToken st.session.token auth = true
    · by_cases ho : a.isEmpty = true <;> simpa [stepState, handle, hval, ho] using hInv
    · simpa [stepState, handle, hval] using hInv
  | teamUsers a b c =>
    by_cases hval : validateToken st.session.token auth = true
    · by_cases ho : a.isEmpty = true <;> simpa [stepState, handle, hval, ho] using hInv
    · simpa [stepState, handle, hval] using hInv
  | pkgCollaborators a b c =>
    by_cases hval : validateToken st.session.token auth = true
    · by_cases ho : a.isEmpty = true <;> simpa [stepState, handle, hval, ho] using hInv
    · simpa [stepState, handle, hval] using hInv

theorem reachable_storeInv {tok : String} {st : ConnState}
    (hr : Reachable tok st) : StoreInv st := by
  induction hr with
  | init => exact ⟨by simp [initConnState], by simp [initConnState]⟩
  | @step st auth req st' resp log h₀ hfr hh ih =>
    have := storeInv_step st auth req ih hfr
    simpa [stepState, hh] using this

/-- C3: along every sequence of handled requests (create, batch create,
approve, approve-all, retry, execute, delete, delete-all, handshake and
the read-only queries) starting from process start, every status write is
along the edges pending to approved, approved to running, running to
completed, running to failed, or failed to approved. The request surface
never populates `dependsOn`, so the dependency cascade — the one code path
writing a different edge — is unreachable from requests. -/
theorem c3_status_edges (tok : String) (st : ConnState) (auth : Option String)
    (req : Request) (hr : Reachable tok st) :
    ∀ c ∈ stepLog st auth req, edgeOk c.2.1 c.2.2 = true := by
  obtain ⟨hnd, hprop⟩ := reachable_storeInv hr
  cases req with
  | connect a b c' =>
    by_cases hc : a = st.session.token <;> simp [stepLog, handle, hc]
  | getState =>
    by_cases hval : validateToken st.session.token auth = true <;>
      simp [stepLog, handle, hval]
  | createOp a b =>
    by_cases hval : validateToken st.session.token auth = true <;>
      simp [stepLog, handle, hval]
  | createBatch a b =>
    by_cases hval : validateToken st.session.token auth = true <;>
      simp [stepLog, handle, hval]
  | approve i =>
    by_cases hval : validateToken st.session.token auth = true
    · cases hlk : lookupOp st.operations i with
      | none => simp [stepLog, handle, hval, hlk]
      | some op =>
        by_cases hst : op.status = OpStatus.pending
        · intro c hc
          simp only [stepLog, handle, hval, if_true, hlk, hst, if_pos,
            List.mem_singleton] at hc
          subst hc
          simp [hst, edgeOk]
        · simp [stepLog, handle, hval, hlk, hst]
    · simp [stepLog, handle, hval]
  | approveAll =>
    by_cases hval : validateToken st.session.token auth = true
    · intro c hc
      simp only [stepLog, handle, hval, if_true, List.mem_map] at hc
      obtain ⟨o, ho, rfl⟩ := hc
      have hp : o.status = OpStatus.pending :=
        of_decide_eq_true (List.mem_filter.mp ho).2
      simp [hp, edgeOk]
    · simp [stepLog, handle, hval]
  | retryOp i =>
    by_cases hval : validateToken st.session.token auth = true
    · cases hlk : lookupOp st.operations i with
      | none => simp [stepLog, handle, hval, hlk]
      | some op =>
        by_cases hst : op.status = OpStatus.failed
        · intro c hc
          simp only [stepLog, handle, hval, if_true, hlk, hst, if_pos,
            List.mem_singleton] at hc
          subst hc
          simp [hst, edgeOk]
        · simp [stepLog, handle, hval, hlk, hst]
    · simp [stepLog, handle, hval]
  | execute otp exec =>
    by_cases hval : validateToken st.session.token auth = true
    · intro c hc
      simp only [stepLog, handle, hval, if_true] at hc
      exact executeRun_changes_legal exec otp st.operations hnd
        (fun o ho => (hprop o ho).1) c hc
    · simp [stepLog, handle, hval]
  | deleteOp i =>
    by_cases hval : validateToken st.session.token auth = true
    · cases hidx : st.operations.findIdx? (fun o => decide (o.id = i)) with
      | none => simp [stepLog, handle, hval, hidx]
      | some n =>
        cases hget : st.operations[n]? with
        | none => simp [stepLog, handle, hval, hidx, hget]
        | some op =>
          by_cases hrun : op.status = OpStatus.running <;>
            simp [stepLog, handle, hval, hidx, hget, hrun]
    · simp [stepLog, handle, hval]
  | deleteAll =>
    by_cases hval : validateToken st.session.token auth = true <;>
      simp [stepLog, handle, hval]
  | orgUsers a b c =>
    by_cases hval : validateToken st.session.token auth = true
    · by_cases ho : a.isEmpty = true <;> simp [stepLog, handle, hval, ho]
    · simp [stepLog, handle, hval]
  | orgTeams a b c =>
    by_cases hval : validateToken st.session.token auth = true
    · by_cases ho : a.isEmpty = true <;> simp [stepLog, handle, hval, ho]
    · simp [stepLog, handle, hval]
  | teamUsers a b c =>
    by_cases hval : validateToken st.session.token auth = true
    · by_cases ho : a.isEmpty = true <;> simp [stepLog, handle, hval, ho]
    · simp [stepLog, handle, hval]
  | pkgCollaborators a b c =>
    by_cases hval : validateToken st.session.token auth = true
    · by_cases ho : a.isEmpty = true <;> simp [stepLog, handle, hval, ho]
    · simp [stepLog, handle, hval]

theorem c3_witness :
    edgeOk (wIdA, OpStatus.approved, OpStatus.running).2.1
      (wIdA, OpStatus.approved, OpStatus.running).2.2 = true :=
  c3_status_edges wTok wStApproved wAuth (Request.execute none wExecFail)
    (Reachable.step
      (Reachable.step Reachable.init
        (show freshOk (initConnState wTok) (Request.createOp wSpecA 7) by
          intro op hop
          cases hop)
        (show handle (initConnState wTok) wAuth (Request.createOp wSpecA 7) =
          Except.ok (wStCreated, RespData.opData (newOperation wSpecA 7), []) by rfl))
      (show freshOk wStCreated (Request.approve wIdA) by trivial)
      (show handle wStCreated wAuth (Request.approve wIdA) =
        Except.ok (wStApproved,
          RespData.opData { newOperation wSpecA 7 with status := OpStatus.approved },
          [(wIdA, OpStatus.pending, OpStatus.approved)]) by rfl))
    (wIdA, OpStatus.approved, OpStatus.running) (by decide)

end NpmxDev
